import Mathlib

/-!
Verification of the xml.js library: a shallow embedding of the lexer, parser,
tree model, serializer and schema mapper, translated from the TypeScript
sources (src/parser.ts, src/node.ts, src/map.ts, src/util.ts), together with
theorems settling the specification claims.

Conventions of the embedding:
* JavaScript strings are modelled as `String`/`List Char`; machine positions
  as `Nat`; the sentinel `-1` of `findIndex` as `Int`.
* Exceptions are modelled with `Except`: `XmlParseError` values carry the
  description and 1-based line plus the column counter, and a separate
  constructor models a raw JavaScript `TypeError` (an exception that is not an
  `XmlParseError`).
* The recursive-descent parser loops are given explicit fuel; `parseXml`
  supplies fuel that always exceeds the number of loop steps of the source
  program on the same input, so the fuel branch is never taken on the inputs
  the source can process.
* The mutable element tree with parent back-references (node.ts) is modelled
  arena-style: a store of element records addressed by numeric ids, with
  object identity of the source mapped to id equality.
-/

namespace XmlJs

/-! ## Character classes and string helpers (parser.ts, util.ts) -/

/-- `LOWERCASE` from parser.ts: the range r("a", "z"). -/
def LOWERCASE : List Char := "abcdefghijklmnopqrstuvwxyz".data

/-- `UPPERCASE` from parser.ts: the range r("A", "Z"). -/
def UPPERCASE : List Char := "ABCDEFGHIJKLMNOPQRSTUVWXYZ".data

/-- `DIGIT` from parser.ts: the range r("0", "9"). -/
def DIGIT : List Char := "0123456789".data

/-- `HEX` from parser.ts: r("a","f") + r("A","F") + DIGIT. -/
def HEX : List Char := "abcdefABCDEF0123456789".data

/-- `ALPHANUMERIC` from parser.ts. -/
def ALPHANUMERIC : List Char := LOWERCASE ++ UPPERCASE ++ DIGIT

/-- `WHITESPACE` from parser.ts: space, \r, \n, \t. -/
def WHITESPACE : List Char := [' ', '\r', '\n', '\t']

/-- `QUOTE` from parser.ts. -/
def QUOTE : List Char := ['\'', '\"']

/-- Whether `s.trim()` of JavaScript is empty, restricted to the ASCII
whitespace the library itself deals in (the sources only probe the
truthiness of `trim()`). -/
def isWhitespaceOnly (s : String) : Bool := s.data.all (· ∈ WHITESPACE)

/-- One `replaceAll` pass of util.ts, replacing a single character by a
replacement string. -/
def replaceAllChar (c : Char) (rep : String) (s : String) : String :=
  String.mk ((s.data.map (fun d => if d = c then rep.data else [d])).flatten)

/-- `encodeXmlEntities` from util.ts: sequential `replaceAll` passes, the
ampersand first so already-inserted entities are not double-escaped. -/
def encodeXmlEntities (raw : String) : String :=
  replaceAllChar '>' "&gt;"
    (replaceAllChar '\'' "&apos;"
      (replaceAllChar '\"' "&quot;"
        (replaceAllChar '<' "&lt;"
          (replaceAllChar '&' "&amp;" raw))))

/-! ## Names and queries (node.ts) -/

/-- `XmlName` from node.ts. The source field `prefix` is called `pfx` here. -/
structure XmlName where
  pfx : String
  name : String
deriving DecidableEq, Repr

/-- `XmlName.toString`: `prefix:name` when the prefix is non-empty. -/
def xmlNameToString (n : XmlName) : String :=
  if n.pfx.length ≠ 0 then n.pfx ++ ":" ++ n.name else n.name

/-- `XmlName.equals`: both parts must match exactly. -/
def xmlNameEquals (a b : XmlName) : Bool :=
  a.pfx = b.pfx && a.name = b.name

/-- `XmlQuery` from node.ts: optional `id` and `name` filter fields. -/
structure XmlQuery where
  id : Option String := none
  name : Option String := none
deriving DecidableEq, Repr

/-- `XmlElement.matches` from node.ts applied to an `XmlQuery` (the overload
taking another element compares object identity and is modelled in the arena
section). `matchesQuery` receives the element's name and attribute list. -/
def matchesQuery (elemName : XmlName) (attrs : List (XmlName × String))
    (q : XmlQuery) : Bool :=
  if q.id.isSome &&
      ((attrs.find? (fun a => a.1.name = "ID")).map Prod.snd = q.id) then
    true
  else if q.name.isSome && (some elemName.name = q.name) then
    true
  else
    false

/-! ## The immutable tree view of nodes

The parser, serializer and mapper observe an element only through its name,
attribute list and child list, so for those components the tree is embedded
as a plain inductive value (the parent back-reference, which they never read,
is modelled separately in the arena section for the mutation claims). -/

/-- `XmlNode` from node.ts: a text leaf or an element. -/
inductive XmlNode where
  | text (s : String)
  | elem (name : XmlName) (attrs : List (XmlName × String))
      (children : List XmlNode)

/-- An element under construction by the parser (`new XmlElement(...)` with
children appended by `addChild`). -/
structure XmlElemS where
  nameS : XmlName
  attrsS : List (XmlName × String)
  childrenS : List XmlNode

/-- The in-order list of text children of an element (the strings the
`typeof c == "string"` branches of the sources see). -/
def textsOf : List XmlNode → List String
  | [] => []
  | .text s :: rest => s :: textsOf rest
  | .elem _ _ _ :: rest => textsOf rest

/-- Number of child elements whose local name is `k` (document order). -/
def elemNameCount (k : String) : List XmlNode → Nat
  | [] => 0
  | .text _ :: rest => elemNameCount k rest
  | .elem n _ _ :: rest =>
      (if n.name = k then 1 else 0) + elemNameCount k rest

mutual

/-- `XmlElement.toString` from node.ts: opening tag with escaped attribute
values, then `children.join("")` — element children recursively serialized,
text children emitted verbatim (the source does not escape them) — or `/>`
when the child sequence is literally empty. -/
def nodeToString : XmlNode → String
  | .text s => s
  | .elem n attrs children =>
      "<" ++ xmlNameToString n
        ++ String.join (attrs.map
            (fun p => " " ++ xmlNameToString p.1 ++ "=\""
              ++ encodeXmlEntities p.2 ++ "\""))
        ++ (if children.isEmpty then "/>"
            else ">" ++ nodesToString children
              ++ "</" ++ xmlNameToString n ++ ">")

/-- `children.join("")` over a child list. -/
def nodesToString : List XmlNode → String
  | [] => ""
  | c :: cs => nodeToString c ++ nodesToString cs

end

/-- `combinedText` from node.ts: concatenation of the direct text children. -/
def combinedText (children : List XmlNode) : String :=
  String.join (textsOf children)

/-! ## The lexer (parser.ts)

The source keeps an index `next` into the string and consults
`src[this.next - 1]` when deciding whether a `\n` follows a `\r`; the state
here keeps the remaining characters plus the previously consumed character,
which is the same information. -/

/-- Errors escaping the parser: `XmlParseError` (description, 1-based line,
column counter), a raw JavaScript `TypeError` (not an `XmlParseError`), and
the fuel sentinel never reached under the fuel supplied by `parseXml`. -/
inductive ParseErr where
  | parseErr (description : String) (line : Nat) (col : Nat)
  | typeError (msg : String)
  | fuelExhausted
deriving DecidableEq, Repr

/-- Lexer state: remaining input, previously consumed character
(`src[next-1]`), and the line/column counters (initially 1 and 0). -/
structure LexState where
  rest : List Char
  prev : Option Char
  line : Nat
  col : Nat
deriving DecidableEq, Repr

/-- The `new Lexer(src)` state. -/
def mkLexer (s : String) : LexState :=
  { rest := s.data, prev := none, line := 1, col := 0 }

/-- `Lexer.err`: an `XmlParseError` carrying the current line/column. -/
def lexErr (st : LexState) (msg : String) : ParseErr :=
  .parseErr msg st.line st.col

/-- `Lexer.peek`. -/
def lexPeek (st : LexState) : Option Char := st.rest.head?

/-- `Lexer.isEnd`. -/
def lexIsEnd (st : LexState) : Bool := st.rest.isEmpty

/-- `Lexer.consumeOrEnd`: advances the cursor; a `\r`, or a `\n` not preceded
by `\r`, increments the line and resets the column; a `\n` preceded by `\r`
leaves both counters unchanged; any other character increments the column. -/
def consumeOrEnd (st : LexState) : Option Char × LexState :=
  match st.rest with
  | [] => (none, st)
  | c :: cs =>
      if c = '\r' ∨ (c = '\n' ∧ st.prev ≠ some '\r') then
        (some c, { rest := cs, prev := some c, line := st.line + 1, col := 0 })
      else if c ≠ '\n' then
        (some c, { rest := cs, prev := some c, line := st.line,
                   col := st.col + 1 })
      else
        (some c, { rest := cs, prev := some c, line := st.line,
                   col := st.col })

/-- `Lexer.consume`: fails with "Unexpected end" at end of input. -/
def lexConsume (st : LexState) : Except ParseErr (Char × LexState) :=
  match consumeOrEnd st with
  | (none, _) => .error (lexErr st "Unexpected end")
  | (some c, st') => .ok (c, st')

/-- `Lexer.expect(c)`: the error is raised after consuming, so it carries the
post-consumption position. -/
def lexExpect (c : Char) (st : LexState) : Except ParseErr LexState := do
  let (b, st') ← lexConsume st
  if b ≠ c then
    .error (lexErr st' ("Expected " ++ c.toString ++ " but got " ++ b.toString))
  else
    .ok st'

/-- `Lexer.expectOneOf(charset)`. -/
def lexExpectOneOf (charset : List Char) (st : LexState) :
    Except ParseErr (Char × LexState) := do
  let (got, st') ← lexConsume st
  if got ∈ charset then
    .ok (got, st')
  else
    .error (lexErr st' ("Expected one of \x7b" ++ String.mk charset
      ++ "\x7d but got " ++ got.toString))

/-- `Lexer.maybeExpect(c)` / `Lexer.skipIf(c)` (identical behaviour in the
source): consume iff the next character is `c`. -/
def lexSkipIf (c : Char) (st : LexState) : Bool × LexState :=
  if st.rest.head? = some c then (true, (consumeOrEnd st).2) else (false, st)

/-- `Lexer.maybeExpectOneOf(charset)`. -/
def lexMaybeExpectOneOf (charset : List Char) (st : LexState) :
    Option Char × LexState :=
  match st.rest.head? with
  | some b => if b ∈ charset then (some b, (consumeOrEnd st).2) else (none, st)
  | none => (none, st)

/-- `Lexer.maybeExpectNotOneOf(charset)`: on end of input the source calls
`consume()`, which throws "Unexpected end". -/
def lexMaybeExpectNotOneOf (charset : List Char) (st : LexState) :
    Except ParseErr (Option Char × LexState) :=
  match st.rest.head? with
  | none => .error (lexErr st "Unexpected end")
  | some b =>
      if b ∈ charset then .ok (none, st)
      else do
        let (c, st') ← lexConsume st
        .ok (some c, st')

theorem consumeOrEnd_rest_cons (st : LexState) (c : Char) (cs : List Char)
    (h : st.rest = c :: cs) : ((consumeOrEnd st).2).rest = cs := by
  simp only [consumeOrEnd, h]
  split
  · rfl
  · split <;> rfl

/-- The loop of `Lexer.consumeWhile(charset)`, fueled; every iteration
consumes one character, so fuel exceeding the remaining length never runs
out. -/
def lexConsumeWhileF (fuel : Nat) (charset : List Char) (st : LexState) :
    List Char × LexState :=
  match fuel with
  | 0 => ([], st)
  | fuel + 1 =>
      match st.rest.head? with
      | none => ([], st)
      | some c =>
          if c ∈ charset then
            let st' := (consumeOrEnd st).2
            let (cs, st'') := lexConsumeWhileF fuel charset st'
            (c :: cs, st'')
          else
            ([], st)

/-- `Lexer.consumeWhile(charset)`: greedily consume characters of the set. -/
def lexConsumeWhile (charset : List Char) (st : LexState) :
    List Char × LexState :=
  lexConsumeWhileF (st.rest.length + 1) charset st

/-- `Lexer.skipWhile(charset)`. -/
def lexSkipWhile (charset : List Char) (st : LexState) : Nat × LexState :=
  let (cs, st') := lexConsumeWhile charset st
  (cs.length, st')

def lexSkipUntilF (fuel : Nat) (charset : List Char) (st : LexState) :
    Except ParseErr LexState :=
  match fuel with
  | 0 => .error .fuelExhausted
  | fuel + 1 =>
      match st.rest.head? with
      | none => .error (lexErr st "Unexpected end")
      | some c =>
          if c ∈ charset then .ok st
          else lexSkipUntilF fuel charset (consumeOrEnd st).2

/-- `Lexer.skipUntil(charset)` (the count it returns is unused by the
parser): consume until a set character, or throw "Unexpected end" at end of
input (via `maybeExpectNotOneOf`). -/
def lexSkipUntil (charset : List Char) (st : LexState) :
    Except ParseErr LexState :=
  lexSkipUntilF (st.rest.length + 1) charset st

/-- `Lexer.expectOneOrMoreOf(charset, expectName)`. -/
def lexExpectOneOrMoreOf (charset : List Char) (expectName : String)
    (st : LexState) : Except ParseErr (String × LexState) :=
  let (cs, st') := lexConsumeWhile charset st
  if cs.isEmpty then .error (lexErr st' ("Expected " ++ expectName))
  else .ok (String.mk cs, st')

end XmlJs

namespace XmlJs

/-! ## Entity decoding and the recursive-descent parser (parser.ts) -/

/-- `ENTITY_REFS` from parser.ts. Any other name yields no own property, so
the source's subsequent property access crashes with a TypeError. -/
def ENTITY_REFS (name : String) : Option String :=
  if name = "amp" then some "&"
  else if name = "apos" then some "'"
  else if name = "gt" then some ">"
  else if name = "lt" then some "<"
  else if name = "quot" then some "\""
  else none

/-- Value of a decimal digit character. -/
def digitVal (c : Char) : Nat := c.toNat - 48

/-- `Number.parseInt(num, 10)` on a digit string. -/
def decVal (cs : List Char) : Nat := cs.foldl (fun a c => a * 10 + digitVal c) 0

/-- Value of a hexadecimal digit character. -/
def hexDigitVal (c : Char) : Nat :=
  if c.toNat ≤ 57 then c.toNat - 48
  else if c.toNat ≤ 70 then c.toNat - 55
  else c.toNat - 87

/-- `Number.parseInt(num, 16)` on a hex-digit string. -/
def hexVal (cs : List Char) : Nat := cs.foldl (fun a c => a * 16 + hexDigitVal c) 0

/-- `parseName` from parser.ts: one-or-more alphanumerics, optionally
`:` and one-or-more alphanumerics; the first part becomes the prefix when a
colon follows, else the local name with an empty prefix. -/
def parseName (st : LexState) : Except ParseErr (XmlName × LexState) := do
  let (name, st1) ← lexExpectOneOrMoreOf ALPHANUMERIC "element/attribute name" st
  let (colon, st2) := lexSkipIf ':' st1
  if colon then
    let (local2, st3) ← lexExpectOneOrMoreOf ALPHANUMERIC
      "prefixed element/attribute name" st2
    .ok (⟨name, local2⟩, st3)
  else
    .ok (⟨"", name⟩, st2)

/-- `parseEntity` from parser.ts. For a non-numeric reference the source
evaluates `ENTITY_REFS[name].charCodeAt(0)` *before* the falsy check, so an
unknown name crashes with a JavaScript TypeError (undefined property access)
and the `Invalid entity reference` throw below it is unreachable. A code
point above 0x10FFFF makes `String.fromCodePoint` throw, caught and rethrown
as a parse error. (JavaScript would accept a lone-surrogate code point; Lean
strings cannot hold one, so that unclaimed corner is mapped to the same
parse error.) -/
def parseEntity (st : LexState) : Except ParseErr (String × LexState) := do
  let st1 ← lexExpect '&' st
  let (hash, st2) := lexSkipIf '#' st1
  if hash then
    let (isx, st3) := lexSkipIf 'x' st2
    let (isX, st3') := if isx then (true, st3) else lexSkipIf 'X' st3
    if isX then
      let (num, st4) := lexConsumeWhile HEX st3'
      if num.length < 1 ∨ num.length > 6 then
        .error (lexErr st4 "Hexadecimal entity is invalid")
      else
        let cp := hexVal num
        let st5 ← lexExpect ';' st4
        if cp < 55296 ∨ (57344 ≤ cp ∧ cp ≤ 1114111) then
          .ok ((Char.ofNat cp).toString, st5)
        else
          .error (lexErr st5 ("Entity refers to invalid Unicode code point "
            ++ toString cp))
    else
      let (num, st4) := lexConsumeWhile DIGIT st3'
      if num.length < 1 ∨ num.length > 7 then
        .error (lexErr st4 "Decimal entity is invalid")
      else
        let cp := decVal num
        let st5 ← lexExpect ';' st4
        if cp < 55296 ∨ (57344 ≤ cp ∧ cp ≤ 1114111) then
          .ok ((Char.ofNat cp).toString, st5)
        else
          .error (lexErr st5 ("Entity refers to invalid Unicode code point "
            ++ toString cp))
  else
    let (nameCs, st3) := lexConsumeWhile LOWERCASE st2
    match ENTITY_REFS (String.mk nameCs) with
    | none => .error (.typeError "Cannot read properties of undefined")
    | some s =>
        let cp := (s.data.headD '\x00').toNat
        if cp = 0 then
          .error (lexErr st3 ("Invalid entity reference: " ++ String.mk nameCs))
        else
          let st4 ← lexExpect ';' st3
          .ok ((Char.ofNat cp).toString, st4)

/-- `parseTextOrValue` from parser.ts: accumulate literal characters until
the delimiter, end of input, or an `&` (decoded inline via `parseEntity`).
The fuel always suffices when it exceeds the number of remaining
characters. -/
def parseTextOrValue (fuel : Nat) (delimiter : Char) (st : LexState) :
    Except ParseErr (String × LexState) :=
  match fuel with
  | 0 => .error .fuelExhausted
  | fuel + 1 =>
      match st.rest.head? with
      | none => .ok ("", st)
      | some c =>
          if c = delimiter then .ok ("", st)
          else if c = '&' then do
            let (s, st1) ← parseEntity st
            let (t, st2) ← parseTextOrValue fuel delimiter st1
            .ok (s ++ t, st2)
          else do
            let (b, st1) ← lexConsume st
            let (t, st2) ← parseTextOrValue fuel delimiter st1
            .ok (b.toString ++ t, st2)

/-- The `<?` skipping loop of `parseContent`: skip to an unquoted `?>`,
skipping over double-quoted regions. -/
def skipPI (fuel : Nat) (st : LexState) : Except ParseErr LexState :=
  match fuel with
  | 0 => .error .fuelExhausted
  | fuel + 1 => do
      let st1 ← lexSkipUntil ['\"', '?'] st
      let (q, st2) := lexSkipIf '\"' st1
      if q then
        let st3 ← lexSkipUntil ['\"'] st2
        let st4 ← lexExpect '\"' st3
        skipPI fuel st4
      else
        let st3 ← lexExpect '?' st2
        lexExpect '>' st3

/-- The attribute loop of an opening tag in `parseContent`: repeatedly parse
`name = "value"` pairs until `/>` (self-closing) or `>`. Returns the
attribute list, the self-closing flag and the state after the tag. -/
def parseAttrs (fuel : Nat) (st : LexState)
    (acc : List (XmlName × String)) :
    Except ParseErr (List (XmlName × String) × Bool × LexState) :=
  match fuel with
  | 0 => .error .fuelExhausted
  | fuel + 1 => do
      let (_, st1) := lexSkipWhile WHITESPACE st
      let (slash, st2) := lexSkipIf '/' st1
      if slash then
        let st3 ← lexExpect '>' st2
        .ok (acc, true, st3)
      else
        let (gt, st2') := lexSkipIf '>' st1
        if gt then
          .ok (acc, false, st2')
        else do
          let (attrName, st3) ← parseName st1
          let (_, st4) := lexSkipWhile WHITESPACE st3
          let st5 ← lexExpect '=' st4
          let (_, st6) := lexSkipWhile WHITESPACE st5
          let (attrQuote, st7) ← lexExpectOneOf QUOTE st6
          let (attrValue, st8) ← parseTextOrValue (st7.rest.length + 1)
            attrQuote st7
          let st9 ← lexExpect attrQuote st8
          parseAttrs fuel st9 (acc ++ [(attrName, attrValue)])

/-- `XmlElement.addChild` as used by the parser: append at the end. -/
def addChildNode (e : XmlElemS) (n : XmlNode) : XmlElemS :=
  { e with childrenS := e.childrenS ++ [n] }

/-- `parseContent` from parser.ts: the content loop of `parentElem`.
Text runs become text children; `<!` markup is skipped to the next `>`;
`<?` is skipped to an unquoted `?>`; `</name>` must match the enclosing
element's name (with no enclosing element — local name "" — it is an
unexpected closing tag) and ends the loop; any other `<` starts an opening
tag, parsed into a fresh element that recursively parses its own content
unless self-closing and is then appended to `parentElem`. Reaching the end
of input ends the loop without error. -/
def parseContent (fuel : Nat) (st : LexState) (parentElem : XmlElemS) :
    Except ParseErr (XmlElemS × LexState) :=
  match fuel with
  | 0 => .error .fuelExhausted
  | fuel + 1 => do
      let (text, st1) ← parseTextOrValue (st.rest.length + 1) '<' st
      if text.length ≠ 0 then
        parseContent fuel st1 (addChildNode parentElem (.text text))
      else if lexIsEnd st1 then
        .ok (parentElem, st1)
      else do
        let st2 ← lexExpect '<' st1
        let (bang, st3) := lexSkipIf '!' st2
        if bang then do
          let st4 ← lexSkipUntil ['>'] st3
          let st5 ← lexExpect '>' st4
          parseContent fuel st5 parentElem
        else
          let (q, st3') := lexSkipIf '?' st2
          if q then do
            let st4 ← skipPI (st3'.rest.length + 1) st3'
            parseContent fuel st4 parentElem
          else do
            let (isClosing, st4) := lexSkipIf '/' st3'
            let (name, st5) ← parseName st4
            if isClosing then
              if parentElem.nameS.name = "" then
                .error (lexErr st5 "Unexpected closing tag")
              else if ¬ xmlNameEquals name parentElem.nameS then
                .error (lexErr st5 ("Mismatched closing tag; expected "
                  ++ xmlNameToString parentElem.nameS ++ " but got "
                  ++ xmlNameToString name))
              else do
                let (_, st6) := lexSkipWhile WHITESPACE st5
                let st7 ← lexExpect '>' st6
                .ok (parentElem, st7)
            else do
              let (attrs, selfClosing, st6) ←
                parseAttrs (st5.rest.length + 1) st5 []
              let (child, st7) ←
                if selfClosing then
                  (.ok (⟨name, attrs, []⟩, st6) :
                    Except ParseErr (XmlElemS × LexState))
                else
                  parseContent fuel st6 ⟨name, attrs, []⟩
              parseContent fuel st7
                (addChildNode parentElem
                  (.elem child.nameS child.attrsS child.childrenS))

/-- The root-selection loop of `parseXml`: top-level text must be pure
whitespace, and exactly one top-level element must exist. -/
def findRoot : List XmlNode → Option XmlNode →
    Except ParseErr (Option XmlNode)
  | [], acc => .ok acc
  | .text s :: rest, acc =>
      if ¬ isWhitespaceOnly s then
        .error (.parseErr "XML document has top-level non-whitespace text" 1 0)
      else findRoot rest acc
  | .elem n a c :: rest, acc =>
      match acc with
      | some _ =>
          .error (.parseErr "XML document has multiple top level elements" 1 0)
      | none => findRoot rest (some (.elem n a c))

/-- `parseXml` from parser.ts: parse the content into a dummy root with an
empty name, then select the single top-level element (detached from the
dummy, which in this value representation is just returning it). The fuel
`2 * length + 2` strictly exceeds the number of loop steps the source takes
on any input, since every `parseContent` step except the final one of each
level consumes at least one character. -/
def parseXml (xml : String) : Except ParseErr XmlNode := do
  let dummyRoot : XmlElemS := ⟨⟨"", ""⟩, [], []⟩
  let (pe, _) ← parseContent (2 * xml.length + 2) (mkLexer xml) dummyRoot
  let root ← findRoot pe.childrenS none
  match root with
  | none => .error (.parseErr "XML document does not have root element" 1 0)
  | some r => .ok r

end XmlJs

namespace XmlJs

/-! ## The schema mapper (map.ts)

Field validators and child mappers are external collaborators; they are
modelled as plain functions producing `MVal` values. The output record of
the compiled projection (`res`) is an association list with JavaScript
object semantics: assignment overwrites in place, new keys append. -/

/-- Dynamic values produced by validators, child mappers and the projection
itself. -/
inductive MVal where
  | str (s : String)
  | num (n : Int)
  | arr (l : List MVal)
  | record (fields : List (String × MVal))

/-- Schema errors: `path.isBadAsIt(msg)` of the valid library, carrying the
diagnostic path. Validator errors use the same shape and propagate
unchanged. -/
inductive MapErr where
  | badAs (path : List String) (msg : String)
deriving DecidableEq, Repr

/-- A field validator collaborator: `parse(path, rawValue)`. -/
abbrev Validator : Type := List String → String → Except MapErr MVal

/-- `ElemMapFn`: a compiled child mapper `(elem, path) -> R`, receiving the
element's name, attributes and children. -/
abbrev ElemMapFn : Type :=
  XmlName → List (XmlName × String) → List XmlNode → List String →
    Except MapErr MVal

/-- `AttrMapping` from map.ts. -/
structure AttrMapping where
  name : String
  ignore : Bool := false
  optional : Bool := false
  validator : Validator

/-- `ElemMappingMode` from map.ts. -/
inductive ElemMappingMode where
  | repeated
  | required
  | optional
deriving DecidableEq, Repr

/-- `ElemMapping` from map.ts (`min` is only meaningful for `repeated`). -/
structure ElemMapping where
  name : String
  mode : ElemMappingMode
  ignore : Bool := false
  min : Option Nat := none
  mapper : ElemMapFn

/-- The `textMapping` record of map.ts. -/
structure TextMapping where
  name : String
  ignore : Bool := false
  validator : Option Validator := none

/-- The schema accumulated by `XmlElementMapperBuilder` at the moment
`build()` is called. -/
structure MapperSchema where
  expectedName : Option String := none
  attrMappings : List AttrMapping := []
  elemMappings : List ElemMapping := []
  textMapping : Option TextMapping := none

/-- The output record under construction. -/
abbrev ResRec : Type := List (String × MVal)

/-- `res[k]` lookup. -/
def resGet (r : ResRec) (k : String) : Option MVal :=
  (r.find? (fun p => p.1 = k)).map Prod.snd

/-- `res[k] = v`: overwrite in place, or append a new key. -/
def resSet (r : ResRec) (k : String) (v : MVal) : ResRec :=
  if r.any (fun p => p.1 = k) then
    r.map (fun p => if p.1 = k then (k, v) else p)
  else
    r ++ [(k, v)]

/-- `res[k].push(v)`. The non-array fallback is unreachable: every repeated
rule's key is initialised to an empty array before the children pass. -/
def resPush (r : ResRec) (k : String) (v : MVal) : ResRec :=
  match resGet r k with
  | some (.arr l) => resSet r k (.arr (l ++ [v]))
  | _ => resSet r k (.arr [v])

/-- `Dict` lookup (a Map built from entries; a later duplicate key wins). -/
def dictGetAttr (l : List AttrMapping) (k : String) : Option AttrMapping :=
  l.reverse.find? (fun a => a.name = k)

/-- `Dict` lookup for element rules. -/
def dictGetElem (l : List ElemMapping) (k : String) : Option ElemMapping :=
  l.reverse.find? (fun e => e.name = k)

/-- `new Set(names)`: deduplicate preserving first insertion. -/
def setOfList (l : List String) : List String :=
  l.foldl (fun acc n => if n ∈ acc then acc else acc ++ [n]) []

/-- Insertion into a sorted list (for the `sort()` of the missing-attributes
message). -/
def insertSorted (x : String) : List String → List String
  | [] => [x]
  | y :: ys => if x ≤ y then x :: y :: ys else y :: insertSorted x ys

/-- JavaScript `Array.sort()` on strings. -/
def sortStrings (l : List String) : List String := l.foldr insertSorted []

/-- The counter of still-required child counts (`Counter` of xtjs). -/
abbrev CounterT : Type := List (String × Int)

/-- `Counter.decrement(k)`. -/
def counterDec (c : CounterT) (k : String) : CounterT :=
  c.map (fun p => if p.1 = k then (p.1, p.2 - 1) else p)

/-- The first entry `positiveEntries()` would yield. -/
def counterFirstPositive (c : CounterT) : Option (String × Int) :=
  c.find? (fun p => 0 < p.2)

/-- The attribute pass of the compiled projection: `xmlns` attributes are
skipped, any attribute without a rule is unexpected, required names are
crossed off the `remaining` set, present values run through their
validators, and non-ignored results are stored. -/
def processAttrs (attrM : List AttrMapping) (path : List String) :
    List (XmlName × String) → List String → ResRec →
      Except MapErr (List String × ResRec)
  | [], remaining, res => .ok (remaining, res)
  | (nm, value) :: rest, remaining, res =>
      if nm.pfx = "xmlns" ∨ xmlNameToString nm = "xmlns" then
        processAttrs attrM path rest remaining res
      else
        match dictGetAttr attrM nm.name with
        | none =>
            .error (.badAs path
              ("has an unexpected attribute " ++ xmlNameToString nm))
        | some m => do
            let remaining' := remaining.filter (fun n => n ≠ nm.name)
            let parsed ← m.validator (path ++ ["Attr " ++ xmlNameToString nm])
              value
            let res' := if m.ignore then res else resSet res nm.name parsed
            processAttrs attrM path rest remaining' res'

/-- The children pass of the compiled projection (the
`for (const [childNo, child] of elem.children.entries())` loop of map.ts):
text children update the `seenText` flag per the text rule, element children
must match a rule by local name, decrement the still-required counter and
have their mapper run, with repeated results pushed and others assigned. -/
def processChildren (emL : List ElemMapping) (tm : Option TextMapping)
    (path : List String) :
    List XmlNode → Nat → Bool → CounterT → ResRec →
      Except MapErr (Bool × CounterT × ResRec)
  | [], _, seenText, cnt, res => .ok (seenText, cnt, res)
  | .text s :: rest, childNo, seenText, cnt, res =>
      let childPath := path ++ ["Child #" ++ toString childNo ++ " (text)"]
      let isWhitespace := isWhitespaceOnly s
      match tm with
      | some tmv =>
          if seenText then
            if ¬ isWhitespace then
              .error (.badAs childPath "is unexpected")
            else
              processChildren emL tm path rest (childNo + 1) true cnt res
          else do
            let parsed ←
              match tmv.validator with
              | some v => v childPath s
              | none => .ok (.str s)
            let res' := if tmv.ignore then res else resSet res tmv.name parsed
            processChildren emL tm path rest (childNo + 1) true cnt res'
      | none =>
          if ¬ isWhitespace then
            .error (.badAs childPath "is unexpected")
          else
            processChildren emL tm path rest (childNo + 1) seenText cnt res
  | .elem cn ca cc :: rest, childNo, seenText, cnt, res =>
      let childPath := path ++ ["Child #" ++ toString childNo ++ " ("
        ++ xmlNameToString cn ++ ")"]
      match dictGetElem emL cn.name with
      | none => .error (.badAs childPath "is unexpected")
      | some m => do
          let cnt' := counterDec cnt cn.name
          let val ← m.mapper cn ca cc childPath
          let res' :=
            if m.ignore then res
            else match m.mode with
              | .repeated => resPush res cn.name val
              | _ => resSet res cn.name val
          processChildren emL tm path rest (childNo + 1) seenText cnt' res'

/-- The still-required count a rule contributes:
`mode == "optional" ? 0 : mode == "required" ? 1 : min ?? 0`. -/
def ruleRequiredCount (e : ElemMapping) : Int :=
  match e.mode with
  | .optional => 0
  | .required => 1
  | .repeated => (e.min.getD 0 : Nat)

/-- The compiled projection returned by `XmlElementMapperBuilder.build()`,
applied to an element (name, attributes, children) and an optional caller
path (defaulting to the element's rendered name). -/
def buildRun (s : MapperSchema) (nm : XmlName)
    (attrs : List (XmlName × String)) (children : List XmlNode)
    (pathArg : Option (List String)) : Except MapErr ResRec := do
  let path := pathArg.getD [xmlNameToString nm]
  match s.expectedName with
  | some en =>
      if nm.name ≠ en then
        .error (.badAs path ("it is not an element with the name " ++ en))
      else .ok ()
  | none => .ok ()
  let requiredAttrNames :=
    ((s.attrMappings.filter (fun a => ¬ a.optional)).map (fun a => a.name))
  let (remaining, res1) ←
    processAttrs s.attrMappings path attrs (setOfList requiredAttrNames) []
  if remaining.length ≠ 0 then
    .error (.badAs path ("is missing attributes: "
      ++ String.intercalate ", " (sortStrings remaining)))
  else .ok ()
  let repeatedElemNames :=
    (s.elemMappings.filter (fun e => e.mode = .repeated)).map (fun e => e.name)
  let res2 := repeatedElemNames.foldl (fun r n => resSet r n (.arr [])) res1
  let requiredElemCounts : CounterT :=
    s.elemMappings.map (fun e => (e.name, ruleRequiredCount e))
  let (seenText, cnt, res3) ←
    processChildren s.elemMappings s.textMapping path children 0 false
      requiredElemCounts res2
  match counterFirstPositive cnt with
  | some (n, c) =>
      .error (.badAs path ("does not have " ++ toString c ++ " more " ++ n
        ++ " elements"))
  | none =>
      if s.textMapping.isSome ∧ ¬ seenText then
        .error (.badAs path "does not have any expected text content")
      else
        .ok res3

end XmlJs

namespace XmlJs

/-! ## The mutable tree with parent back-references (node.ts)

`addChild`, `detach` and `deleteChild` mutate elements through object
references. The embedding is arena-style: element objects live in a store
addressed by numeric ids, object identity (`===`) becomes id equality, and
each element record carries its `parent` back-reference as an optional id.
Text children carry their string inline (strings have no parent). -/

/-- A child slot of an element: a reference to another element object, or a
text string. -/
inductive ArenaNode where
  | elemRef (id : Nat)
  | textNode (s : String)
deriving DecidableEq, Repr

/-- The mutable state of one `XmlElement` object. -/
structure ElemData where
  ename : XmlName := ⟨"", ""⟩
  eattrs : List (XmlName × String) := []
  echildren : List ArenaNode := []
  eparent : Option Nat := none
deriving DecidableEq, Repr

/-- The arena of element objects: `size` ids are in use. -/
structure Store where
  size : Nat
  data : Nat → ElemData

/-- Read an element object. -/
def getE (s : Store) (i : Nat) : ElemData := s.data i

/-- Overwrite an element object. -/
def setE (s : Store) (i : Nat) (e : ElemData) : Store :=
  ⟨s.size, fun j => if j = i then e else s.data j⟩

/-- Errors of the tree-model operations: `IndexOutOfRange` (a RangeError in
the source), `AlreadyHasParent` and `NoParent` (source: "XML element does
not have a parent and cannot be detached"). As in the source, every check
precedes every mutation, so an error leaves the store untouched. -/
inductive TreeErr where
  | indexOutOfRange
  | alreadyHasParent
  | noParent
deriving DecidableEq, Repr

/-- `Array.prototype.findIndex` as an optional index. -/
def findIdxA (p : α → Bool) : List α → Option Nat
  | [] => none
  | a :: l => if p a then some 0 else (findIdxA p l).map (· + 1)

/-- `Array.prototype.splice(pos, 0, x)` for `pos ≤ length`. -/
def insertAt (x : α) : List α → Nat → List α
  | l, 0 => x :: l
  | [], _ + 1 => [x]
  | a :: l, n + 1 => a :: insertAt x l n

/-- `Array.prototype.splice(pos, 1)`. -/
def removeAt : List α → Nat → List α
  | [], _ => []
  | _ :: l, 0 => l
  | a :: l, n + 1 => a :: removeAt l n

/-- `XmlElement.addChild(child, pos)` from node.ts: bounds-check the
position (the default position is the current length), then for an element
child require it to be parentless, set its parent, and finally splice the
child into the sequence. -/
def addChildAt (s : Store) (p : Nat) (child : ArenaNode) (pos : Nat) :
    Except TreeErr Store :=
  let pe := getE s p
  if pos > pe.echildren.length then
    .error .indexOutOfRange
  else
    match child with
    | .textNode _ =>
        .ok (setE s p { pe with echildren := insertAt child pe.echildren pos })
    | .elemRef c =>
        let ce := getE s c
        if ce.eparent.isSome then
          .error .alreadyHasParent
        else
          let s1 := setE s c { ce with eparent := some p }
          let pe1 := getE s1 p
          .ok (setE s1 p
            { pe1 with echildren := insertAt child pe1.echildren pos })

/-- `addChild` with the default position (append at the end). -/
def addChild (s : Store) (p : Nat) (child : ArenaNode) : Except TreeErr Store :=
  addChildAt s p child (getE s p).echildren.length

/-- `XmlElement.deleteChild(child)` from node.ts: find the child by
identity; when present splice it out and clear its parent link, returning
its former index, else return the sentinel `-1` having changed nothing. -/
def deleteChild (s : Store) (p : Nat) (c : Nat) : Store × Int :=
  let pe := getE s p
  match findIdxA (fun ch => ch = .elemRef c) pe.echildren with
  | none => (s, -1)
  | some pos =>
      let s1 := setE s p { pe with echildren := removeAt pe.echildren pos }
      let ce := getE s1 c
      (setE s1 c { ce with eparent := none }, (pos : Int))

/-- `XmlElement.detach()` from node.ts: fail with `NoParent` when the
element has no parent, else `deleteChild` it from that parent (which clears
the parent link) and return the former parent with the former index. -/
def detach (s : Store) (c : Nat) : Except TreeErr (Store × Nat × Int) :=
  match (getE s c).eparent with
  | none => .error .noParent
  | some p =>
      let (s', pos) := deleteChild s p c
      .ok (s', p, pos)

/-- The element-identity overload of `XmlElement.matches`: `q === this`. -/
def matchesElemRef (selfId otherId : Nat) : Bool := selfId = otherId

/-- Well-formedness of a store: child element references point at in-range
elements whose parent link is the referencing element, and an element with
a defined parent occurs exactly once in that parent's child sequence. This
is the attach invariant of the tree model. -/
def wfStore (s : Store) : Bool :=
  (List.range s.size).all fun i =>
    ((getE s i).echildren.all fun ch =>
      match ch with
      | .textNode _ => true
      | .elemRef j =>
          decide (j < s.size) && decide ((getE s j).eparent = some i)) &&
    (match (getE s i).eparent with
     | none => true
     | some p =>
         decide (p < s.size) &&
         decide ((getE s p).echildren.count (.elemRef i) = 1))

end XmlJs

namespace XmlJs

/-! ## String-level line/column specifications (for the lexer claims)

These recompute, directly from the character sequence, what the lexer's
line/column counters should be; they are independent of the lexer's own
stateful update rule. -/

/-- The iteration of `consumeAll`, fueled. -/
def consumeAllF (fuel : Nat) (st : LexState) : LexState :=
  match fuel with
  | 0 => st
  | fuel + 1 =>
      match st.rest.head? with
      | none => st
      | some _ => consumeAllF fuel (consumeOrEnd st).2

/-- Run the lexer to the end of its input. -/
def consumeAll (st : LexState) : LexState :=
  consumeAllF (st.rest.length + 1) st

/-- The number of line breaks in a character sequence, counting a `\r`, or
a `\n` not immediately preceded by `\r`, as one break each (so the pair
`\r\n` is a single break); `prev` is the character before the sequence. -/
def lineBreaks : Option Char → List Char → Nat
  | _, [] => 0
  | prev, c :: cs =>
      (if c = '\r' ∨ (c = '\n' ∧ prev ≠ some '\r') then 1 else 0)
        + lineBreaks (some c) cs

/-- The number of characters strictly after the last `\r` or `\n` of a
sequence (the whole length when it has neither). -/
def trailingColumns : List Char → Nat
  | [] => 0
  | c :: cs =>
      if cs.any (fun d => d = '\r' ∨ d = '\n') then trailingColumns cs
      else if c = '\r' ∨ c = '\n' then cs.length
      else cs.length + 1

/-- The 1-based column of position `pos` of `src`: one more than the number
of characters between the last line break and the position. -/
def oneBasedColumn (src : List Char) (pos : Nat) : Nat :=
  trailingColumns (src.take pos) + 1

end XmlJs

namespace XmlJs

/-! ## Theorems for the claims -/

/-- C1 (code bug evaluation): `toString` emits text children verbatim —
`encodeXmlEntities` is applied to attribute values only — so serializing the
element `<a>` whose single text child is the one-character string `<`
produces `<a><</a>`, and parsing that output fails instead of reproducing
the tree. The round-trip property and the claim that `toString`
entity-escapes text children fail on this tree, while the attribute half of
the escaping does happen (last conjunct). -/
theorem c1_toString_text_not_escaped :
    nodeToString (.elem ⟨"", "a"⟩ [] [.text "<"]) = "<a><</a>"
    ∧ parseXml "<a><</a>"
        = .error (.parseErr "Expected element/attribute name" 1 4)
    ∧ nodeToString (.elem ⟨"", "a"⟩ [(⟨"", "b"⟩, "<")] [])
        = "<a b=\"&lt;\"/>" := by
  refine ⟨rfl, rfl, rfl⟩

/-- C3 (code bug evaluation): decoding the unknown entity reference `&foo;`
crashes with a JavaScript TypeError — `ENTITY_REFS[name]` is `undefined` and
`.charCodeAt(0)` is read from it before the falsy check, making the
`Invalid entity reference` parse-error throw unreachable — rather than
failing with an `XmlParseError` carrying line and column. -/
theorem c3_unknown_entity_type_error :
    parseXml "&foo;" = .error (.typeError "Cannot read properties of undefined")
    ∧ parseXml "<a>&foo;</a>"
        = .error (.typeError "Cannot read properties of undefined")
    ∧ ∀ d l c, (ParseErr.typeError "Cannot read properties of undefined")
        ≠ .parseErr d l c := by
  refine ⟨rfl, rfl, fun d l c h => by cases h⟩

/-- C2 (counterexample): the input `<a>` has an opening tag ending in `>`
that is never followed by a matching closing tag, yet `parseXml` returns the
element `a` with no children instead of failing with a parse error. -/
theorem c2_truncated_input_parses :
    parseXml "<a>" = .ok (.elem ⟨"", "a"⟩ [] []) := by
  rfl

/-- C6 (counterexample): for an element whose attributes are
`a:ID="1"` followed by `ID="2"`, the query `{id: "2"}` does not match, even
though an attribute literally named `ID` has exactly the value `2`: the
source compares the query id against the *first* attribute whose local name
is `ID`, regardless of prefix. -/
theorem c6_literal_id_not_matched :
    matchesQuery ⟨"", "e"⟩ [(⟨"a", "ID"⟩, "1"), (⟨"", "ID"⟩, "2")]
        ⟨some "2", none⟩ = false
    ∧ (⟨"", "ID"⟩, "2")
        ∈ ([(⟨"a", "ID"⟩, "1"), (⟨"", "ID"⟩, "2")] :
            List (XmlName × String))
    ∧ matchesQuery ⟨"xml", "e"⟩ [(⟨"xml", "ID"⟩, "5")] ⟨some "5", none⟩
        = true := by
  refine ⟨rfl, by decide, rfl⟩

/-- C8 (counterexample): parsing `<` raises its error while the cursor
stands after the consumed `<`, at 1-based column 2 of line 1, but the error
carries column 1: the column counter starts at 0 and counts consumed
characters, so errors do not carry the 1-based column of the position. -/
theorem c8_column_not_one_based :
    parseXml "<" = .error (.parseErr "Expected element/attribute name" 1 1)
    ∧ oneBasedColumn "<".data 1 = 2
    ∧ (1 : Nat) ≠ 2 := by
  refine ⟨rfl, by decide, by decide⟩

end XmlJs

namespace XmlJs

/-- C6 (amended): an Element matches a Query iff either configured field
matches, as a logical OR — a Query with both fields set matches on either
alone — where the `id` field matches iff the *first* attribute whose local
name is `ID` (any prefix, compared ignoring the prefix) carries exactly the
queried value, and the `name` field matches iff the Element's local name
equals it ignoring the prefix. -/
theorem c6_matches_or_semantics (elemName : XmlName)
    (attrs : List (XmlName × String)) (q : XmlQuery) :
    matchesQuery elemName attrs q = true ↔
      ((∃ v, q.id = some v ∧
          (attrs.find? (fun a => a.1.name = "ID")).map Prod.snd = some v)
        ∨ (∃ n, q.name = some n ∧ elemName.name = n)) := by
  unfold matchesQuery
  rcases hq : q.id with _ | v <;> rcases hn : q.name with _ | n <;>
    by_cases hf : (attrs.find? (fun a => a.1.name = "ID")).map Prod.snd
        = q.id <;>
    simp_all

/-- C2 (amended): reaching the end of the input ends the `parseContent`
loop without error and without requiring a closing tag for the enclosing
element — the element built so far is returned as-is for any positive fuel.
Combined with the counterexample (`parseXml "<a>" = ok`), truncated
documents whose opened elements are never closed can parse successfully. -/
theorem parseContent_at_eof (fuel : Nat) (st : LexState)
    (pe : XmlElemS) (hrest : st.rest = []) (hfuel : 1 ≤ fuel) :
    parseContent fuel st pe = .ok (pe, st) := by
  match fuel, hfuel with
  | fuel + 1, _ =>
      simp [parseContent, parseTextOrValue, hrest, lexIsEnd, Except.bind,
        bind, List.isEmpty]

theorem c2_parseContent_returns_at_eof (fuel : Nat) (st : LexState)
    (pe : XmlElemS) (hrest : st.rest = []) (hfuel : 1 ≤ fuel) :
    parseContent fuel st pe = .ok (pe, st) :=
  parseContent_at_eof fuel st pe hrest hfuel

/-- Witness for C2's amended theorem at a concrete state. -/
theorem c2_parseContent_returns_at_eof_witness :
    parseContent 1 (mkLexer "") ⟨⟨"", "x"⟩, [], []⟩
      = .ok (⟨⟨"", "x"⟩, [], []⟩, mkLexer "") :=
  c2_parseContent_returns_at_eof 1 (mkLexer "") ⟨⟨"", "x"⟩, [], []⟩ rfl
    (by decide)

end XmlJs

namespace XmlJs

/-- Invariant of the children pass: on success the still-required counter
has each entry decremented exactly once per child element of that local
name, independently of the text rule and of the mapped values. -/
theorem processChildren_counter (emL : List ElemMapping)
    (tm : Option TextMapping) (path : List String) :
    ∀ (children : List XmlNode) (childNo : Nat) (seen : Bool)
      (cnt : CounterT) (res : ResRec) (out : Bool × CounterT × ResRec),
      processChildren emL tm path children childNo seen cnt res = .ok out →
      out.2.1 = cnt.map
        (fun p => (p.1, p.2 - (elemNameCount p.1 children : Int))) := by
  intro children
  induction children with
  | nil =>
      intro childNo seen cnt res out h
      simp [processChildren] at h
      simp [← h, elemNameCount]
  | cons child rest ih =>
      intro childNo seen cnt res out h
      cases child with
      | text s =>
          cases tm with
          | some tmv =>
              by_cases hs : seen
              · by_cases hw : isWhitespaceOnly s
                · simp [processChildren, hs, hw] at h
                  simpa [elemNameCount] using ih _ _ _ _ _ h
                · simp [processChildren, hs, hw] at h
              · cases hval : tmv.validator with
                | none =>
                    simp [processChildren, hs, hval, Except.bind, bind] at h
                    simpa [elemNameCount] using ih _ _ _ _ _ h
                | some v =>
                    cases hv : v (path ++ ["Child #" ++ toString childNo
                        ++ " (text)"]) s with
                    | error e =>
                        simp [processChildren, hs, hval, hv, Except.bind,
                          bind] at h
                    | ok parsed =>
                        simp [processChildren, hs, hval, hv, Except.bind,
                          bind] at h
                        simpa [elemNameCount] using ih _ _ _ _ _ h
          | none =>
              by_cases hw : isWhitespaceOnly s
              · simp [processChildren, hw] at h
                simpa [elemNameCount] using ih _ _ _ _ _ h
              · simp [processChildren, hw] at h
      | elem cn ca cc =>
          cases hd : dictGetElem emL cn.name with
          | none => simp [processChildren, hd] at h
          | some m =>
              cases hv : m.mapper cn ca cc (path ++ ["Child #"
                  ++ toString childNo ++ " (" ++ xmlNameToString cn ++ ")"])
                with
              | error e =>
                  simp [processChildren, hd, hv, Except.bind, bind] at h
              | ok val =>
                  simp [processChildren, hd, hv, Except.bind, bind] at h
                  have h2 := ih _ _ _ _ _ h
                  rw [h2, counterDec]
                  simp only [List.map_map, elemNameCount]
                  apply List.map_congr_left
                  intro p _
                  by_cases hp : p.1 = cn.name
                  · simp [Function.comp, hp]
                    omega
                  · have : ¬ cn.name = p.1 := fun hc => hp hc.symm
                    simp [Function.comp, hp, this]

end XmlJs

namespace XmlJs

/-- Inversion of a successful projection: the children pass succeeded on
some intermediate record, the still-required counter ended with no positive
entry, and when a text rule is declared the `seenText` flag ended true. -/
theorem buildRun_ok_inv (s : MapperSchema) (nm : XmlName)
    (attrs : List (XmlName × String)) (children : List XmlNode)
    (pathArg : Option (List String)) (res : ResRec)
    (h : buildRun s nm attrs children pathArg = .ok res) :
    ∃ (res2 : ResRec) (seenText : Bool) (cnt : CounterT) (res3 : ResRec),
      processChildren s.elemMappings s.textMapping
          (pathArg.getD [xmlNameToString nm]) children 0 false
          (s.elemMappings.map (fun e => (e.name, ruleRequiredCount e))) res2
        = .ok (seenText, cnt, res3)
      ∧ counterFirstPositive cnt = none
      ∧ (s.textMapping.isSome → seenText = true) := by
  unfold buildRun at h
  simp only [bind, Except.bind] at h
  repeat' split at h
  all_goals try (cases h)
  all_goals
    refine ⟨_, _, _, _, by assumption, by assumption, ?_⟩
  all_goals
    intro hts
    by_contra hsf
    simp only [Bool.not_eq_true] at hsf
    simp_all

end XmlJs

namespace XmlJs

/-- C4 (amended): a `required` child rule enforces a minimum of one, not
exactly one — whenever the compiled projection succeeds, at least one child
element with the rule's local name was present (zero such children leave the
rule's counter positive and fail with the MissingChildren error); two or
more children of that name are accepted, the stored value being the last
one mapped (see the counterexample). -/
theorem c4_required_needs_at_least_one (s : MapperSchema) (r : ElemMapping)
    (nm : XmlName) (attrs : List (XmlName × String))
    (children : List XmlNode) (pathArg : Option (List String)) (res : ResRec)
    (hr : r ∈ s.elemMappings) (hmode : r.mode = .required)
    (hok : buildRun s nm attrs children pathArg = .ok res) :
    1 ≤ elemNameCount r.name children := by
  obtain ⟨res2, seen, cnt, res3, hpc, hcf, -⟩ :=
    buildRun_ok_inv s nm attrs children pathArg res hok
  have hcnt := processChildren_counter s.elemMappings s.textMapping
    (pathArg.getD [xmlNameToString nm]) children 0 false
    (s.elemMappings.map (fun e => (e.name, ruleRequiredCount e))) res2
    (seen, cnt, res3) hpc
  have hcnt2 : cnt = (s.elemMappings.map
      (fun e => (e.name, ruleRequiredCount e))).map
      (fun p => (p.1, p.2 - (elemNameCount p.1 children : Int))) := by
    simpa using hcnt
  have hmem : (r.name, ruleRequiredCount r)
      ∈ s.elemMappings.map (fun e => (e.name, ruleRequiredCount e)) :=
    List.mem_map_of_mem _ hr
  have hmem2 : (r.name,
      ruleRequiredCount r - (elemNameCount r.name children : Int)) ∈ cnt := by
    rw [hcnt2]
    exact List.mem_map_of_mem
      (fun p : String × Int =>
        (p.1, p.2 - (elemNameCount p.1 children : Int))) hmem
  have hnpos := List.find?_eq_none.mp hcf _ hmem2
  have h1 : ruleRequiredCount r = 1 := by
    simp [ruleRequiredCount, hmode]
  rw [h1] at hnpos
  simp only [decide_eq_true_eq] at hnpos
  omega

/-- The child mapper used in the C4 counterexample: extract the `v`
attribute of the child. -/
def c4Mapper : ElemMapFn := fun _ attrs _ _ =>
  .ok (.str (((attrs.find? (fun a => a.1.name = "v")).map Prod.snd).getD ""))

/-- The C4 counterexample schema: one `required` rule for local name `b`. -/
def c4Schema : MapperSchema :=
  { elemMappings := [{ name := "b", mode := .required, mapper := c4Mapper }] }

/-- C4 (counterexample): with a `required` rule for `b`, a document holding
*two* `b` children satisfies the mapper — the projection succeeds, storing
the value mapped from the last `b` child — so `required` does not mean
exactly one. -/
theorem c4_two_required_children_accepted :
    buildRun c4Schema ⟨"", "a"⟩ []
      [.elem ⟨"", "b"⟩ [(⟨"", "v"⟩, "1")] [],
       .elem ⟨"", "b"⟩ [(⟨"", "v"⟩, "2")] []] none
    = .ok [("b", .str "2")] := by
  rfl

/-- Witness for C4's amended theorem at a concrete schema and document. -/
theorem c4_required_needs_at_least_one_witness :
    1 ≤ elemNameCount "b" [.elem ⟨"", "b"⟩ [(⟨"", "v"⟩, "1")] []] :=
  c4_required_needs_at_least_one c4Schema
    { name := "b", mode := .required, mapper := c4Mapper } ⟨"", "a"⟩ []
    [.elem ⟨"", "b"⟩ [(⟨"", "v"⟩, "1")] []] none [("b", .str "1")]
    (List.Mem.head _) rfl rfl

end XmlJs

namespace XmlJs

/-- With no text rule, the children pass succeeds only if every text child
is pure whitespace, and it never touches the `seenText` flag. -/
theorem processChildren_texts_none (emL : List ElemMapping)
    (path : List String) :
    ∀ (children : List XmlNode) (childNo : Nat) (seen : Bool)
      (cnt : CounterT) (res : ResRec) (out : Bool × CounterT × ResRec),
      processChildren emL none path children childNo seen cnt res = .ok out →
      (∀ t ∈ textsOf children, isWhitespaceOnly t = true) ∧ out.1 = seen := by
  intro children
  induction children with
  | nil =>
      intro childNo seen cnt res out h
      simp [processChildren] at h
      simp [← h, textsOf]
  | cons child rest ih =>
      intro childNo seen cnt res out h
      cases child with
      | text s =>
          by_cases hw : isWhitespaceOnly s
          · simp only [processChildren, hw, Bool.not_true, reduceIte] at h
            have h2 := ih _ _ _ _ _ h
            refine ⟨?_, h2.2⟩
            intro t ht
            rcases List.mem_cons.mp (by simpa [textsOf] using ht) with h3 | h3
            · rw [h3]; exact hw
            · exact h2.1 t h3
          · simp [processChildren, hw] at h
      | elem cn ca cc =>
          cases hd : dictGetElem emL cn.name with
          | none => simp [processChildren, hd] at h
          | some m =>
              cases hv : m.mapper cn ca cc (path ++ ["Child #"
                  ++ toString childNo ++ " (" ++ xmlNameToString cn ++ ")"])
                with
              | error e =>
                  simp [processChildren, hd, hv, Except.bind, bind] at h
              | ok val =>
                  simp only [processChildren, hd, hv, Except.bind, bind] at h
                  have h2 := ih _ _ _ _ _ h
                  exact ⟨by simpa [textsOf] using h2.1, h2.2⟩

/-- With a text rule, a successful children pass ends with the `seenText`
flag set iff it started set or any text child exists; when it started set
every text child must be pure whitespace, and when it started clear every
text child after the first must be pure whitespace (the first — whitespace
or not — becomes the matched text). -/
theorem processChildren_texts_some (emL : List ElemMapping)
    (tmv : TextMapping) (path : List String) :
    ∀ (children : List XmlNode) (childNo : Nat) (seen : Bool)
      (cnt : CounterT) (res : ResRec) (out : Bool × CounterT × ResRec),
      processChildren emL (some tmv) path children childNo seen cnt res
        = .ok out →
      out.1 = (seen || !(textsOf children).isEmpty)
      ∧ (seen = true → ∀ t ∈ textsOf children, isWhitespaceOnly t = true)
      ∧ (seen = false →
          ∀ t ∈ (textsOf children).tail, isWhitespaceOnly t = true) := by
  intro children
  induction children with
  | nil =>
      intro childNo seen cnt res out h
      simp [processChildren] at h
      simp [← h, textsOf]
  | cons child rest ih =>
      intro childNo seen cnt res out h
      cases child with
      | text s =>
          by_cases hs : seen
          · by_cases hw : isWhitespaceOnly s
            · simp only [processChildren, hs, hw, Bool.not_true,
                reduceIte] at h
              have h2 := ih _ _ _ _ _ h
              subst hs
              refine ⟨by simp [h2.1, textsOf], ?_, by simp⟩
              intro _ t ht
              rcases List.mem_cons.mp (by simpa [textsOf] using ht) with
                h3 | h3
              · rw [h3]; exact hw
              · exact h2.2.1 rfl t h3
            · simp [processChildren, hs, hw] at h
          · have hs' : seen = false := by simpa using hs
            subst hs'
            cases hval : tmv.validator with
            | none =>
                simp only [processChildren, hval, Bool.false_eq_true,
                  reduceIte, Except.bind, bind] at h
                have h2 := ih _ _ _ _ _ h
                refine ⟨by simp [h2.1, textsOf], by simp, ?_⟩
                intro _
                simpa [textsOf] using h2.2.1 rfl
            | some v =>
                cases hv : v (path ++ ["Child #" ++ toString childNo
                    ++ " (text)"]) s with
                | error e =>
                    simp [processChildren, hval, hv, Except.bind, bind] at h
                | ok parsed =>
                    simp only [processChildren, hval, hv,
                      Bool.false_eq_true, reduceIte, Except.bind, bind] at h
                    have h2 := ih _ _ _ _ _ h
                    refine ⟨by simp [h2.1, textsOf], by simp, ?_⟩
                    intro _
                    simpa [textsOf] using h2.2.1 rfl
      | elem cn ca cc =>
          cases hd : dictGetElem emL cn.name with
          | none => simp [processChildren, hd] at h
          | some m =>
              cases hv : m.mapper cn ca cc (path ++ ["Child #"
                  ++ toString childNo ++ " (" ++ xmlNameToString cn ++ ")"])
                with
              | error e =>
                  simp [processChildren, hd, hv, Except.bind, bind] at h
              | ok val =>
                  simp only [processChildren, hd, hv, Except.bind, bind] at h
                  have h2 := ih _ _ _ _ _ h
                  exact ⟨by simpa [textsOf] using h2.1,
                    fun hs => by simpa [textsOf] using h2.2.1 hs,
                    fun hs => by simpa [textsOf] using h2.2.2 hs⟩

end XmlJs

namespace XmlJs

/-- C5 (amended): the text rule binds the *first* text child — whitespace
or not — as the matched text, so on a successful projection: with a text
rule declared the element has at least one text child (MissingText is
raised only when there are none at all, a whitespace-only one sufficing and
becoming the value) and every text child after the first is pure
whitespace; with no text rule declared every text child is pure
whitespace. -/
theorem c5_text_rule_first_text_child (s : MapperSchema) (nm : XmlName)
    (attrs : List (XmlName × String)) (children : List XmlNode)
    (pathArg : Option (List String)) (res : ResRec)
    (hok : buildRun s nm attrs children pathArg = .ok res) :
    (s.textMapping = none →
      ∀ t ∈ textsOf children, isWhitespaceOnly t = true)
    ∧ (∀ tmv, s.textMapping = some tmv →
        textsOf children ≠ []
        ∧ ∀ t ∈ (textsOf children).tail, isWhitespaceOnly t = true) := by
  obtain ⟨res2, seen, cnt, res3, hpc, -, hts⟩ :=
    buildRun_ok_inv s nm attrs children pathArg res hok
  constructor
  · intro hnone
    rw [hnone] at hpc
    exact (processChildren_texts_none s.elemMappings
      (pathArg.getD [xmlNameToString nm]) children 0 false _ res2
      (seen, cnt, res3) hpc).1
  · intro tmv hsome
    rw [hsome] at hpc hts
    have h3 := processChildren_texts_some s.elemMappings tmv
      (pathArg.getD [xmlNameToString nm]) children 0 false _ res2
      (seen, cnt, res3) hpc
    have hseen : seen = true := hts (by simp)
    have h31 : seen = (false || !(textsOf children).isEmpty) := by
      simpa using h3.1
    constructor
    · rw [hseen] at h31
      intro hemp
      rw [hemp] at h31
      simp at h31
    · simpa using h3.2.2

/-- The C5 counterexample schema: a text rule storing under key `t`, with
no validator so the raw text is used verbatim. -/
def c5Schema : MapperSchema := { textMapping := some { name := "t" } }

/-- C5 (counterexample): with a text rule declared and no non-whitespace
text child present, the projection does not fail with MissingText — the
whitespace-only first text child is matched and stored verbatim; and when a
pure-whitespace text child precedes the non-whitespace one, the
non-whitespace child is rejected as UnexpectedText instead of being
matched. -/
theorem c5_whitespace_text_matched :
    buildRun c5Schema ⟨"", "a"⟩ [] [.text "  "] none
      = .ok [("t", .str "  ")]
    ∧ buildRun c5Schema ⟨"", "a"⟩ [] [.text "  ", .text "x"] none
      = .error (.badAs ["a", "Child #1 (text)"] "is unexpected") := by
  refine ⟨rfl, rfl⟩

/-- Witness for C5's amended theorem at a concrete schema and document. -/
theorem c5_text_rule_first_text_child_witness :
    textsOf [XmlNode.text "x"] ≠ []
    ∧ ∀ t ∈ (textsOf [XmlNode.text "x"]).tail, isWhitespaceOnly t = true :=
  (c5_text_rule_first_text_child c5Schema ⟨"", "a"⟩ [] [.text "x"] none
    [("t", .str "x")] rfl).2 { name := "t" } rfl

end XmlJs

namespace XmlJs

/-- A sequence without line-break characters has its whole length after the
last break. -/
theorem trailingColumns_of_no_break (cs : List Char)
    (h : cs.any (fun d => d = '\r' ∨ d = '\n') = false) :
    trailingColumns cs = cs.length := by
  induction cs with
  | nil => rfl
  | cons c cs ih =>
      simp only [List.any_cons, Bool.or_eq_false_iff] at h
      rw [trailingColumns, h.2, if_neg (by simp)]
      have : ¬ (c = '\r' ∨ c = '\n') := by
        intro hc
        rcases hc with hc | hc <;> simp [hc] at h
      rw [if_neg this]
      simp

/-- Running the lexer to the end of the input advances `line` by the number
of line breaks (`\r`, or `\n` not right after `\r`) and leaves in `col` the
number of characters after the last break, provided the state is consistent
(right after a consumed `\r` the column is zero, as the update rule
guarantees). -/
theorem consumeAllF_line_col (rest : List Char) :
    ∀ (fuel : Nat) (prev : Option Char) (line col : Nat),
      rest.length < fuel →
      (prev = some '\r' → col = 0) →
      (consumeAllF fuel ⟨rest, prev, line, col⟩).line
          = line + lineBreaks prev rest
      ∧ (consumeAllF fuel ⟨rest, prev, line, col⟩).col
          = (if rest.any (fun d => d = '\r' ∨ d = '\n') then
              trailingColumns rest
            else col + rest.length) := by
  induction rest with
  | nil =>
      intro fuel prev line col hfuel hinv
      match fuel, hfuel with
      | fuel + 1, _ => simp [consumeAllF, lineBreaks]
  | cons c cs ih =>
      intro fuel prev line col hfuel hinv
      match fuel, hfuel with
      | fuel + 1, hf =>
          have hstep : consumeAllF (fuel + 1) ⟨c :: cs, prev, line, col⟩
              = consumeAllF fuel (consumeOrEnd ⟨c :: cs, prev, line, col⟩).2 :=
            rfl
          have hfuel2 : cs.length < fuel := by
            simp only [List.length_cons] at hf
            omega
          by_cases hA : c = '\r' ∨ (c = '\n' ∧ prev ≠ some '\r')
          · have hco : (consumeOrEnd ⟨c :: cs, prev, line, col⟩).2
                = ⟨cs, some c, line + 1, 0⟩ := by
              simp [consumeOrEnd, hA]
            have hbr : (c = '\r' ∨ c = '\n') := by
              rcases hA with h | h
              · exact Or.inl h
              · exact Or.inr h.1
            have hih := ih fuel (some c) (line + 1) 0 hfuel2 (fun _ => rfl)
            rw [hstep, hco]
            constructor
            · rw [hih.1, lineBreaks, if_pos hA]
              omega
            · rw [hih.2]
              have hany : (c :: cs).any (fun d => d = '\r' ∨ d = '\n')
                  = true := by
                simp only [List.any_cons, Bool.or_eq_true]
                left
                simpa using hbr
              rw [if_pos hany, trailingColumns]
              by_cases hcs : cs.any (fun d => d = '\r' ∨ d = '\n') = true
              · rw [if_pos hcs, if_pos hcs]
              · rw [if_neg hcs, if_neg hcs, if_pos (by simpa using hbr)]
                omega
          · by_cases hn : c = '\n'
            · -- a \n directly after \r: both counters stay put
              have hprev : prev = some '\r' := by
                by_contra hp
                exact hA (Or.inr ⟨hn, hp⟩)
              have hcol : col = 0 := hinv hprev
              have hco : (consumeOrEnd ⟨c :: cs, prev, line, col⟩).2
                  = ⟨cs, some c, line, col⟩ := by
                simp [consumeOrEnd, hA, hn, hprev]
              have hih := ih fuel (some c) line col hfuel2
                (fun hc => by rw [hn] at hc; simp at hc)
              rw [hstep, hco]
              constructor
              · rw [hih.1, lineBreaks, if_neg hA]
                omega
              · rw [hih.2]
                have hany : (c :: cs).any (fun d => d = '\r' ∨ d = '\n')
                    = true := by
                  simp [hn]
                rw [if_pos hany, trailingColumns]
                by_cases hcs : cs.any (fun d => d = '\r' ∨ d = '\n') = true
                · rw [if_pos hcs, if_pos hcs]
                · rw [if_neg hcs, if_neg hcs, if_pos (by simp [hn])]
                  omega
            · -- an ordinary character: the column advances
              have hr : ¬ c = '\r' := fun hc => hA (Or.inl hc)
              have hco : (consumeOrEnd ⟨c :: cs, prev, line, col⟩).2
                  = ⟨cs, some c, line, col + 1⟩ := by
                simp [consumeOrEnd, hA, hn, hr]
              have hih := ih fuel (some c) line (col + 1) hfuel2
                (fun hc => by rw [show c = '\r' from by injection hc] at hr
                              simp at hr)
              rw [hstep, hco]
              constructor
              · rw [hih.1, lineBreaks, if_neg hA]
                omega
              · rw [hih.2]
                have hnb : ¬ (c = '\r' ∨ c = '\n') := by
                  intro hc
                  rcases hc with hc | hc
                  · exact hr hc
                  · exact hn hc
                have hany : (c :: cs).any (fun d => d = '\r' ∨ d = '\n')
                    = cs.any (fun d => d = '\r' ∨ d = '\n') := by
                  simp only [List.any_cons]
                  rw [show (decide (c = '\r' ∨ c = '\n')) = false by
                    simpa using hnb]
                  simp
                rw [hany]
                by_cases hcs : cs.any (fun d => d = '\r' ∨ d = '\n') = true
                · rw [if_pos hcs, if_pos hcs, trailingColumns, if_pos hcs]
                · rw [if_neg hcs, if_neg hcs]
                  simp only [List.length_cons]
                  omega

end XmlJs

namespace XmlJs

/-- C8 (amended): the lexer's `line` counter is 1-based — after consuming
any input it equals one plus the number of line breaks, where a `\r\n` pair
counts as a single break (a `\r` always breaks; a `\n` directly after `\r`
does not additionally increment, while a bare `\n` does) — but the `col`
counter is 0-based: it equals the number of characters after the last line
break (0 at the start of a line, not 1), and `err` stamps exactly these
counters into every `XmlParseError`, so errors carry the 0-based column of
the cursor, not the 1-based one. -/
theorem c8_line_one_based_col_zero_based :
    (∀ s : String,
      (consumeAll (mkLexer s)).line = 1 + lineBreaks none s.data
      ∧ (consumeAll (mkLexer s)).col = trailingColumns s.data)
    ∧ lineBreaks none ['\r', '\n'] = 1
    ∧ lineBreaks none ['\r'] = 1
    ∧ lineBreaks none ['\n'] = 1
    ∧ lineBreaks none ['\r', '\n', '\n'] = 2
    ∧ (∀ st msg, lexErr st msg = .parseErr msg st.line st.col) := by
  refine ⟨?_, by decide, by decide, by decide, by decide, fun _ _ => rfl⟩
  intro s
  have h := consumeAllF_line_col s.data (s.data.length + 1) none 1 0
    (Nat.lt_succ_self _) (fun h => by simp at h)
  refine ⟨by simpa [consumeAll, mkLexer] using h.1, ?_⟩
  have h2 := h.2
  by_cases hany : s.data.any (fun d => d = '\r' ∨ d = '\n') = true
  · rw [if_pos hany] at h2
    simpa [consumeAll, mkLexer] using h2
  · rw [if_neg hany] at h2
    rw [trailingColumns_of_no_break s.data (by simpa using hany)]
    simpa [consumeAll, mkLexer] using h2

end XmlJs

namespace XmlJs

/-! ### Basic facts about the arena primitives -/

theorem getE_setE_self (s : Store) (i : Nat) (e : ElemData) :
    getE (setE s i e) i = e := by
  simp [getE, setE]

theorem getE_setE_other (s : Store) (i j : Nat) (e : ElemData) (h : j ≠ i) :
    getE (setE s i e) j = getE s j := by
  simp [getE, setE, h]

theorem size_setE (s : Store) (i : Nat) (e : ElemData) :
    (setE s i e).size = s.size := rfl

theorem mem_insertAt [DecidableEq α] (x y : α) :
    ∀ (l : List α) (n : Nat), y ∈ insertAt x l n ↔ y = x ∨ y ∈ l := by
  intro l
  induction l with
  | nil =>
      intro n
      cases n <;> simp [insertAt]
  | cons a l ih =>
      intro n
      cases n with
      | zero => simp [insertAt]
      | succ n =>
          simp only [insertAt, List.mem_cons, ih]
          tauto

theorem count_insertAt [DecidableEq α] (x y : α) :
    ∀ (l : List α) (n : Nat),
      (insertAt x l n).count y = l.count y + (if x = y then 1 else 0) := by
  intro l
  induction l with
  | nil =>
      intro n
      cases n <;> simp [insertAt, List.count_cons]
  | cons a l ih =>
      intro n
      cases n with
      | zero => simp [insertAt, List.count_cons]
      | succ n =>
          simp only [insertAt, List.count_cons, ih]
          omega

theorem findIdxA_none (p : α → Bool) :
    ∀ (l : List α), (∀ x ∈ l, p x = false) → findIdxA p l = none := by
  intro l
  induction l with
  | nil => intro _; rfl
  | cons a l ih =>
      intro h
      have ha := h a (List.mem_cons_self a l)
      simp [findIdxA, ha, ih (fun x hx => h x (List.mem_cons_of_mem a hx))]

theorem findIdxA_of_mem (p : α → Bool) :
    ∀ (l : List α) (x : α), x ∈ l → p x = true →
      ∃ n, findIdxA p l = some n := by
  intro l
  induction l with
  | nil => intro x hx; simp at hx
  | cons a l ih =>
      intro x hx hp
      by_cases ha : p a = true
      · exact ⟨0, by simp [findIdxA, ha]⟩
      · rcases List.mem_cons.mp hx with h | h
        · rw [h] at hp; exact absurd hp ha
        · obtain ⟨n, hn⟩ := ih x h hp
          exact ⟨n + 1, by simp [findIdxA, ha, hn]⟩

theorem findIdxA_some_get (p : α → Bool) :
    ∀ (l : List α) (n : Nat), findIdxA p l = some n →
      ∃ x, l[n]? = some x ∧ p x = true := by
  intro l
  induction l with
  | nil => intro n h; simp [findIdxA] at h
  | cons a l ih =>
      intro n h
      by_cases ha : p a = true
      · simp [findIdxA, ha] at h
        exact ⟨a, by simp [← h], ha⟩
      · simp [findIdxA, ha] at h
        obtain ⟨m, hm, hmn⟩ := h
        obtain ⟨x, hx, hpx⟩ := ih m hm
        exact ⟨x, by simp [← hmn, hx], hpx⟩

theorem mem_removeAt [DecidableEq α] (y : α) :
    ∀ (l : List α) (n : Nat), y ∈ removeAt l n → y ∈ l := by
  intro l
  induction l with
  | nil => intro n h; simp [removeAt] at h
  | cons a l ih =>
      intro n h
      cases n with
      | zero => exact List.mem_cons_of_mem a (by simpa [removeAt] using h)
      | succ n =>
          rcases List.mem_cons.mp (by simpa [removeAt] using h) with h2 | h2
          · exact h2 ▸ List.mem_cons_self a l
          · exact List.mem_cons_of_mem a (ih n h2)

theorem count_removeAt_found [DecidableEq α] (z : α) :
    ∀ (l : List α) (n : Nat),
      findIdxA (fun x => x = z) l = some n →
      (removeAt l n).count z = l.count z - 1
      ∧ ∀ y, y ≠ z → (removeAt l n).count y = l.count y := by
  intro l
  induction l with
  | nil => intro n h; simp [findIdxA] at h
  | cons a l ih =>
      intro n h
      by_cases ha : a = z
      · simp [findIdxA, ha] at h
        subst ha
        refine ⟨?_, ?_⟩
        · simp [← h, removeAt, List.count_cons]
        · intro y hy
          simp [← h, removeAt, List.count_cons, hy]
      · simp [findIdxA, ha] at h
        obtain ⟨m, hm, hmn⟩ := h
        have ihm := ih m hm
        subst hmn
        constructor
        · rw [show removeAt (a :: l) (m + 1) = a :: removeAt l m from rfl]
          simp only [List.count_cons, ihm.1]
          have : 1 ≤ l.count z := by
            obtain ⟨x, hx, hpx⟩ := findIdxA_some_get _ l m hm
            have hxz : x = z := by simpa using hpx
            subst hxz
            rcases List.getElem?_eq_some.mp hx with ⟨hlt, hget⟩
            have hmem : x ∈ l := hget ▸ List.getElem_mem hlt
            exact List.one_le_count_iff.mpr hmem
          omega
        · intro y hy
          rw [show removeAt (a :: l) (m + 1) = a :: removeAt l m from rfl]
          simp [List.count_cons, ihm.2 y hy]

end XmlJs

namespace XmlJs

/-! ### Working with the well-formedness invariant -/

theorem wf_child_parent (s : Store) (h : wfStore s = true) (i : Nat)
    (hi : i < s.size) (j : Nat)
    (hj : (ArenaNode.elemRef j) ∈ (getE s i).echildren) :
    j < s.size ∧ (getE s j).eparent = some i := by
  unfold wfStore at h
  rw [List.all_eq_true] at h
  have h2 := h i (List.mem_range.mpr hi)
  rw [Bool.and_eq_true] at h2
  have h3 := (List.all_eq_true.mp h2.1) _ hj
  simpa using h3

theorem wf_parent_count (s : Store) (h : wfStore s = true) (i : Nat)
    (hi : i < s.size) (p : Nat) (hp : (getE s i).eparent = some p) :
    p < s.size ∧ (getE s p).echildren.count (.elemRef i) = 1 := by
  unfold wfStore at h
  rw [List.all_eq_true] at h
  have h2 := h i (List.mem_range.mpr hi)
  rw [Bool.and_eq_true] at h2
  have h3 := h2.2
  rw [hp] at h3
  simpa using h3

theorem wf_intro (s : Store)
    (h1 : ∀ i, i < s.size → ∀ j,
      (ArenaNode.elemRef j) ∈ (getE s i).echildren →
      j < s.size ∧ (getE s j).eparent = some i)
    (h2 : ∀ i, i < s.size → ∀ p, (getE s i).eparent = some p →
      p < s.size ∧ (getE s p).echildren.count (.elemRef i) = 1) :
    wfStore s = true := by
  unfold wfStore
  rw [List.all_eq_true]
  intro i hi
  have hi2 := List.mem_range.mp hi
  rw [Bool.and_eq_true]
  constructor
  · rw [List.all_eq_true]
    intro ch hch
    cases ch with
    | textNode t => rfl
    | elemRef j =>
        have := h1 i hi2 j hch
        simp [this.1, this.2]
  · cases hp : (getE s i).eparent with
    | none => rfl
    | some p =>
        have := h2 i hi2 p hp
        simp [this.1, this.2]

/-- An element with no parent occurs in no child sequence of a well-formed
store. -/
theorem wf_unparented_not_child (s : Store) (h : wfStore s = true) (c : Nat)
    (hc : (getE s c).eparent = none) (i : Nat) (hi : i < s.size) :
    (ArenaNode.elemRef c) ∉ (getE s i).echildren := by
  intro hmem
  have := (wf_child_parent s h i hi c hmem).2
  rw [hc] at this
  cases this

end XmlJs

namespace XmlJs

/-- What a successful `addChild` of an element child did to the store:
checked the position and the absence of a parent, set the child's parent,
and spliced it into the target's child sequence. -/
theorem addChildAt_elem_fields (s : Store) (p c : Nat) (pos : Nat)
    (s' : Store) (hok : addChildAt s p (.elemRef c) pos = .ok s') :
    pos ≤ (getE s p).echildren.length
    ∧ (getE s c).eparent = none
    ∧ s'.size = s.size
    ∧ (∀ j, (getE s' j).echildren =
        if j = p then insertAt (.elemRef c) (getE s p).echildren pos
        else (getE s j).echildren)
    ∧ (∀ j, (getE s' j).eparent =
        if j = c then some p else (getE s j).eparent) := by
  unfold addChildAt at hok
  by_cases hpos : pos > (getE s p).echildren.length
  · simp [hpos] at hok
  · simp only [hpos, reduceIte] at hok
    by_cases hpar : (getE s c).eparent.isSome
    · simp [hpar] at hok
    · simp only [hpar, Bool.false_eq_true, reduceIte, Except.ok.injEq] at hok
      have hparn : (getE s c).eparent = none := by
        cases h : (getE s c).eparent
        · rfl
        · rw [h] at hpar; simp at hpar
      refine ⟨by omega, hparn, by rw [← hok]; rfl, ?_, ?_⟩
      · intro j
        rw [← hok]
        by_cases hjp : j = p <;> by_cases hjc : j = c
        · subst hjp
          subst hjc
          simp [getE, setE]
        · subst hjp
          simp [getE, setE, hjc]
        · subst hjc
          simp [getE, setE, hjp]
        · simp [getE, setE, hjp, hjc]
      · intro j
        rw [← hok]
        by_cases hjp : j = p <;> by_cases hjc : j = c
        · subst hjp
          subst hjc
          simp [getE, setE]
        · subst hjp
          simp [getE, setE, hjc]
        · subst hjc
          simp [getE, setE, hjp]
        · simp [getE, setE, hjp, hjc]

/-- What a successful `addChild` of a text child did to the store. -/
theorem addChildAt_text_fields (s : Store) (p : Nat) (t : String)
    (pos : Nat) (s' : Store)
    (hok : addChildAt s p (.textNode t) pos = .ok s') :
    pos ≤ (getE s p).echildren.length
    ∧ s'.size = s.size
    ∧ (∀ j, (getE s' j).echildren =
        if j = p then insertAt (.textNode t) (getE s p).echildren pos
        else (getE s j).echildren)
    ∧ (∀ j, (getE s' j).eparent = (getE s j).eparent) := by
  unfold addChildAt at hok
  by_cases hpos : pos > (getE s p).echildren.length
  · simp [hpos] at hok
  · simp only [hpos, reduceIte, Except.ok.injEq] at hok
    refine ⟨by omega, by rw [← hok]; rfl, ?_, ?_⟩
    · intro j
      rw [← hok]
      by_cases hjp : j = p <;> simp [getE, setE, hjp]
    · intro j
      rw [← hok]
      by_cases hjp : j = p <;> simp [getE, setE, hjp]

/-- What `deleteChild` did to the store when the child was found. -/
theorem deleteChild_found_fields (s : Store) (p c : Nat) (pos : Nat)
    (hfound : findIdxA (fun ch => ch = .elemRef c) (getE s p).echildren
      = some pos) :
    (deleteChild s p c).2 = (pos : Int)
    ∧ (deleteChild s p c).1.size = s.size
    ∧ (∀ j, (getE (deleteChild s p c).1 j).echildren =
        if j = p then removeAt (getE s p).echildren pos
        else (getE s j).echildren)
    ∧ (∀ j, (getE (deleteChild s p c).1 j).eparent =
        if j = c then none else (getE s j).eparent) := by
  unfold deleteChild
  simp only [hfound]
  refine ⟨by trivial, by trivial, ?_, ?_⟩
  · intro j
    by_cases hjp : j = p <;> by_cases hjc : j = c
    · subst hjp
      subst hjc
      simp [getE, setE]
    · subst hjp
      simp [getE, setE, hjc]
    · subst hjc
      simp [getE, setE, hjp]
    · simp [getE, setE, hjp, hjc]
  · intro j
    by_cases hjp : j = p <;> by_cases hjc : j = c
    · subst hjp
      subst hjc
      simp [getE, setE]
    · subst hjp
      simp [getE, setE, hjc]
    · subst hjc
      simp [getE, setE, hjp]
    · simp [getE, setE, hjp, hjc]

end XmlJs

namespace XmlJs

/-- `addChild` preserves the attach invariant. -/
theorem addChildAt_preserves_wf (s : Store) (p : Nat) (ch : ArenaNode)
    (pos : Nat) (s' : Store) (hwf : wfStore s = true) (hp : p < s.size)
    (hch : ∀ c, ch = .elemRef c → c < s.size)
    (hok : addChildAt s p ch pos = .ok s') : wfStore s' = true := by
  cases ch with
  | textNode t =>
      obtain ⟨hpos, hsize, hchild, hpar⟩ :=
        addChildAt_text_fields s p t pos s' hok
      apply wf_intro
      · intro i hi j hj
        rw [hsize] at hi
        rw [hchild i] at hj
        rw [hpar j, hsize]
        by_cases hip : i = p
        · rw [if_pos hip] at hj
          have hj2 : (ArenaNode.elemRef j) ∈ (getE s p).echildren := by
            rcases (mem_insertAt _ _ _ _).mp hj with h | h
            · cases h
            · exact h
          have h2 := wf_child_parent s hwf p hp j hj2
          exact ⟨h2.1, by rw [hip, h2.2]⟩
        · rw [if_neg hip] at hj
          exact wf_child_parent s hwf i hi j hj
      · intro i hi q hq
        rw [hsize] at hi
        rw [hpar i] at hq
        have h2 := wf_parent_count s hwf i hi q hq
        rw [hsize, hchild q]
        by_cases hqp : q = p
        · subst hqp
          rw [if_pos rfl, count_insertAt, if_neg (by intro hh; cases hh)]
          exact ⟨h2.1, by rw [h2.2]⟩
        · rw [if_neg hqp]
          exact h2
  | elemRef c =>
      obtain ⟨hpos, hparn, hsize, hchild, hpar⟩ :=
        addChildAt_elem_fields s p c pos s' hok
      have hc : c < s.size := hch c rfl
      have hnotchild : ∀ i, i < s.size →
          (ArenaNode.elemRef c) ∉ (getE s i).echildren :=
        wf_unparented_not_child s hwf c hparn
      apply wf_intro
      · intro i hi j hj
        rw [hsize] at hi
        rw [hchild i] at hj
        rw [hpar j, hsize]
        by_cases hip : i = p
        · rw [if_pos hip] at hj
          rcases (mem_insertAt _ _ _ _).mp hj with h | h
          · have hjc : j = c := by injection h
            rw [if_pos hjc]
            exact ⟨hjc ▸ hc, by rw [hip]⟩
          · have h2 := wf_child_parent s hwf p hp j h
            have hjc : ¬ j = c := fun hh => (hnotchild p hp) (hh ▸ h)
            rw [if_neg hjc]
            exact ⟨h2.1, by rw [hip, h2.2]⟩
        · rw [if_neg hip] at hj
          have h2 := wf_child_parent s hwf i hi j hj
          have hjc : ¬ j = c := fun hh => (hnotchild i hi) (hh ▸ hj)
          rw [if_neg hjc]
          exact h2
      · intro i hi q hq
        rw [hsize] at hi
        rw [hpar i] at hq
        rw [hsize, hchild q]
        by_cases hic : i = c
        · rw [if_pos hic] at hq
          injection hq with hq
          subst hq
          refine ⟨hp, ?_⟩
          rw [if_pos rfl, count_insertAt]
          have h0 : (getE s p).echildren.count (.elemRef i) = 0 :=
            List.count_eq_zero.mpr (hic ▸ hnotchild p hp)
          rw [h0, if_pos (by rw [hic])]
        · rw [if_neg hic] at hq
          have h2 := wf_parent_count s hwf i hi q hq
          refine ⟨h2.1, ?_⟩
          by_cases hqp : q = p
          · subst hqp
            rw [if_pos rfl, count_insertAt,
              if_neg (by intro hh; injection hh with hh2; exact hic hh2.symm)]
            rw [h2.2]
          · rw [if_neg hqp]
            exact h2.2

/-- `deleteChild` of a found child preserves the attach invariant. -/
theorem deleteChild_preserves_wf (s : Store) (p c : Nat) (pos : Nat)
    (hwf : wfStore s = true) (hp : p < s.size)
    (hfound : findIdxA (fun ch => ch = .elemRef c) (getE s p).echildren
      = some pos) : wfStore (deleteChild s p c).1 = true := by
  obtain ⟨-, hsize, hchild, hpar⟩ := deleteChild_found_fields s p c pos hfound
  have hremc : (removeAt (getE s p).echildren pos).count (.elemRef c)
      = (getE s p).echildren.count (.elemRef c) - 1 :=
    (count_removeAt_found _ _ _ hfound).1
  have hremo : ∀ y, y ≠ (ArenaNode.elemRef c) →
      (removeAt (getE s p).echildren pos).count y
        = (getE s p).echildren.count y :=
    (count_removeAt_found _ _ _ hfound).2
  have hcmem : (ArenaNode.elemRef c) ∈ (getE s p).echildren := by
    obtain ⟨x, hx, hpx⟩ := findIdxA_some_get _ _ _ hfound
    have hxz : x = .elemRef c := by simpa using hpx
    rcases List.getElem?_eq_some.mp hx with ⟨hlt, hget⟩
    exact hxz ▸ hget ▸ List.getElem_mem hlt
  have hcount1 : (getE s p).echildren.count (.elemRef c) = 1 := by
    have hcp := wf_child_parent s hwf p hp c hcmem
    exact (wf_parent_count s hwf c hcp.1 p hcp.2).2
  apply wf_intro
  · intro i hi j hj
    rw [hsize] at hi
    rw [hchild i] at hj
    rw [hpar j, hsize]
    by_cases hip : i = p
    · rw [if_pos hip] at hj
      have hj2 : (ArenaNode.elemRef j) ∈ (getE s p).echildren :=
        mem_removeAt _ _ _ hj
      have h2 := wf_child_parent s hwf p hp j hj2
      have hjc : ¬ j = c := by
        intro hh
        subst hh
        have : (removeAt (getE s p).echildren pos).count (.elemRef j) = 0 := by
          rw [hremc, hcount1]
        exact absurd (List.one_le_count_iff.mpr hj) (by omega)
      rw [if_neg hjc]
      exact ⟨h2.1, by rw [hip, h2.2]⟩
    · rw [if_neg hip] at hj
      have h2 := wf_child_parent s hwf i hi j hj
      have hjc : ¬ j = c := by
        intro hh
        subst hh
        have hcp := wf_child_parent s hwf p hp j hcmem
        have hcp2 := h2.2
        rw [hcp.2] at hcp2
        injection hcp2 with hcp2
        exact hip hcp2.symm
      rw [if_neg hjc]
      exact h2
  · intro i hi q hq
    rw [hsize] at hi
    rw [hpar i] at hq
    by_cases hic : i = c
    · rw [if_pos hic] at hq
      cases hq
    · rw [if_neg hic] at hq
      have h2 := wf_parent_count s hwf i hi q hq
      rw [hsize, hchild q]
      refine ⟨h2.1, ?_⟩
      by_cases hqp : q = p
      · subst hqp
        rw [if_pos rfl,
          hremo _ (by intro hh; injection hh with hh2; exact hic hh2)]
        exact h2.2
      · rw [if_neg hqp]
        exact h2.2

end XmlJs

namespace XmlJs

theorem detach_eq_of_parent (s : Store) (c q : Nat)
    (h : (getE s c).eparent = some q) :
    detach s c = .ok ((deleteChild s q c).1, q, (deleteChild s q c).2) := by
  unfold detach
  rw [h]

/-- The store used to instantiate the attach-invariant witnesses: element 0
owns element 1 as its only child. -/
def S7 : Store :=
  ⟨2, fun i => if i = 0 then { echildren := [.elemRef 1] }
       else if i = 1 then { eparent := some 0 }
       else {}⟩

/-- C7: the attach invariant. (1) `addChild` at any in-bounds position of
an element that already has a parent fails with `AlreadyHasParent` — and
because, as in the source, every check precedes every mutation, the error
leaves both trees untouched. (2) After `detach()` the element is
parentless, no longer occurs in its former parent's child sequence, the
store is still well-formed, and the element can be re-added anywhere at any
in-bounds position. (3) In a well-formed store an element with a defined
parent occurs exactly once in that parent's child sequence, and (4)
`addChild` preserves well-formedness, so the invariant is maintained. -/
theorem c7_attach_invariant :
    (∀ (s : Store) (p c q pos : Nat), (getE s c).eparent = some q →
       pos ≤ (getE s p).echildren.length →
       addChildAt s p (.elemRef c) pos = .error .alreadyHasParent)
    ∧ (∀ (s : Store) (c q : Nat), wfStore s = true → c < s.size →
        (getE s c).eparent = some q →
        ∃ (s' : Store) (pos : Int), detach s c = .ok (s', q, pos)
          ∧ (getE s' c).eparent = none
          ∧ (ArenaNode.elemRef c) ∉ (getE s' q).echildren
          ∧ wfStore s' = true
          ∧ ∀ (p' pos' : Nat), pos' ≤ (getE s' p').echildren.length →
              ∃ s'', addChildAt s' p' (.elemRef c) pos' = .ok s'')
    ∧ (∀ (s : Store), wfStore s = true → ∀ i, i < s.size →
        ∀ p, (getE s i).eparent = some p →
          (getE s p).echildren.count (.elemRef i) = 1)
    ∧ (∀ (s : Store) (p : Nat) (ch : ArenaNode) (pos : Nat) (s' : Store),
        wfStore s = true → p < s.size →
        (∀ c, ch = .elemRef c → c < s.size) →
        addChildAt s p ch pos = .ok s' → wfStore s' = true) := by
  refine ⟨?_, ?_, ?_, ?_⟩
  · intro s p c q pos hq hpos
    unfold addChildAt
    rw [if_neg (by omega)]
    have : (getE s c).eparent.isSome = true := by rw [hq]; rfl
    simp [this]
  · intro s c q hwf hc hq
    have hqc := wf_parent_count s hwf c hc q hq
    have hmem : (ArenaNode.elemRef c) ∈ (getE s q).echildren :=
      List.one_le_count_iff.mp (by rw [hqc.2])
    obtain ⟨pos, hfind⟩ :=
      findIdxA_of_mem (fun ch => ch = .elemRef c) _ _ hmem (by simp)
    obtain ⟨hpos_eq, hsize, hchild, hpar⟩ :=
      deleteChild_found_fields s q c pos hfind
    refine ⟨(deleteChild s q c).1, (deleteChild s q c).2,
      detach_eq_of_parent s c q hq, ?_, ?_, ?_, ?_⟩
    · rw [hpar c, if_pos rfl]
    · rw [hchild q, if_pos rfl]
      intro hmem2
      have h0 : (removeAt (getE s q).echildren pos).count (.elemRef c) = 0 := by
        rw [(count_removeAt_found _ _ _ hfind).1, hqc.2]
      exact absurd (List.one_le_count_iff.mpr hmem2) (by omega)
    · exact deleteChild_preserves_wf s q c pos hwf hqc.1 hfind
    · intro p' pos' hlen
      have hpn : (getE (deleteChild s q c).1 c).eparent = none := by
        rw [hpar c, if_pos rfl]
      refine ⟨setE (setE (deleteChild s q c).1 c
          { getE (deleteChild s q c).1 c with eparent := some p' }) p'
          { getE (setE (deleteChild s q c).1 c
              { getE (deleteChild s q c).1 c with eparent := some p' }) p' with
            echildren := insertAt (.elemRef c)
              (getE (setE (deleteChild s q c).1 c
                { getE (deleteChild s q c).1 c with eparent := some p' })
                  p').echildren pos' }, ?_⟩
      unfold addChildAt
      rw [if_neg (by omega)]
      simp only [hpn, Option.isSome_none, Bool.false_eq_true, reduceIte]
  · intro s hwf i hi p hp
    exact (wf_parent_count s hwf i hi p hp).2
  · intro s p ch pos s' hwf hp hch hok
    exact addChildAt_preserves_wf s p ch pos s' hwf hp hch hok

/-- Witness for C7 at the concrete two-element store `S7`. -/
theorem c7_attach_invariant_witness :
    addChildAt S7 0 (.elemRef 1) 0 = .error .alreadyHasParent
    ∧ (∃ (s' : Store) (pos : Int), detach S7 1 = .ok (s', 0, pos)
        ∧ (getE s' 1).eparent = none
        ∧ (ArenaNode.elemRef 1) ∉ (getE s' 0).echildren
        ∧ wfStore s' = true
        ∧ ∀ (p' pos' : Nat), pos' ≤ (getE s' p').echildren.length →
            ∃ s'', addChildAt s' p' (.elemRef 1) pos' = .ok s'')
    ∧ (getE S7 0).echildren.count (.elemRef 1) = 1 :=
  ⟨c7_attach_invariant.1 S7 0 1 0 0 (by decide) (by decide),
   c7_attach_invariant.2.1 S7 1 0 (by decide) (by decide) (by decide),
   c7_attach_invariant.2.2.1 S7 (by decide) 1 (by decide) 0 (by decide)⟩

/-- C10: `detach()` on an Element with a parent returns the former parent
together with the index at which the Element occurred in that parent's
child sequence, clears the Element's parent link and removes it from the
sequence; `deleteChild` of an Element that is not among the children
returns the sentinel position `-1` and leaves the store unchanged. -/
theorem c10_detach_returns_parent_and_index :
    (∀ (s : Store) (c q : Nat), wfStore s = true → c < s.size →
      (getE s c).eparent = some q →
      ∃ (s' : Store) (n : Nat), detach s c = .ok (s', q, (n : Int))
        ∧ (getE s q).echildren[n]? = some (.elemRef c)
        ∧ (getE s' c).eparent = none
        ∧ (ArenaNode.elemRef c) ∉ (getE s' q).echildren)
    ∧ (∀ (s : Store) (p c : Nat),
        (ArenaNode.elemRef c) ∉ (getE s p).echildren →
        deleteChild s p c = (s, -1)) := by
  constructor
  · intro s c q hwf hc hq
    have hqc := wf_parent_count s hwf c hc q hq
    have hmem : (ArenaNode.elemRef c) ∈ (getE s q).echildren :=
      List.one_le_count_iff.mp (by rw [hqc.2])
    obtain ⟨pos, hfind⟩ :=
      findIdxA_of_mem (fun ch => ch = .elemRef c) _ _ hmem (by simp)
    obtain ⟨hpos_eq, hsize, hchild, hpar⟩ :=
      deleteChild_found_fields s q c pos hfind
    refine ⟨(deleteChild s q c).1, pos, ?_, ?_, ?_, ?_⟩
    · rw [detach_eq_of_parent s c q hq, hpos_eq]
    · obtain ⟨x, hx, hpx⟩ := findIdxA_some_get _ _ _ hfind
      have hxz : x = .elemRef c := by simpa using hpx
      rw [← hxz]
      exact hx
    · rw [hpar c, if_pos rfl]
    · rw [hchild q, if_pos rfl]
      intro hmem2
      have h0 : (removeAt (getE s q).echildren pos).count (.elemRef c) = 0 := by
        rw [(count_removeAt_found _ _ _ hfind).1, hqc.2]
      exact absurd (List.one_le_count_iff.mpr hmem2) (by omega)
  · intro s p c hnm
    have hnone : findIdxA (fun ch => decide (ch = ArenaNode.elemRef c))
        (getE s p).echildren = none :=
      findIdxA_none _ _ (fun x hx => by
        simp only [decide_eq_false_iff_not]
        intro hxc
        exact hnm (hxc ▸ hx))
    simp only [deleteChild, hnone]

/-- Witness for C10 at the concrete two-element store `S7`. -/
theorem c10_detach_returns_parent_and_index_witness :
    (∃ (s' : Store) (n : Nat), detach S7 1 = .ok (s', 0, (n : Int))
      ∧ (getE S7 0).echildren[n]? = some (.elemRef 1)
      ∧ (getE s' 1).eparent = none
      ∧ (ArenaNode.elemRef 1) ∉ (getE s' 0).echildren)
    ∧ deleteChild S7 0 0 = (S7, -1) :=
  ⟨c10_detach_returns_parent_and_index.1 S7 1 0 (by decide) (by decide)
      (by decide),
   c10_detach_returns_parent_and_index.2 S7 0 0 (by decide)⟩

end XmlJs

namespace XmlJs

/-! ### Single-step lemmas for driving the parser symbolically -/

theorem consumeOrEnd_cons (st : LexState) (c : Char) (cs : List Char)
    (h : st.rest = c :: cs) :
    ∃ st', consumeOrEnd st = (some c, st') ∧ st'.rest = cs := by
  simp only [consumeOrEnd, h]
  split
  · exact ⟨_, rfl, rfl⟩
  · split
    · exact ⟨_, rfl, rfl⟩
    · exact ⟨_, rfl, rfl⟩

theorem lexConsume_cons (st : LexState) (c : Char) (cs : List Char)
    (h : st.rest = c :: cs) :
    ∃ st', lexConsume st = .ok (c, st') ∧ st'.rest = cs := by
  obtain ⟨st', h1, h2⟩ := consumeOrEnd_cons st c cs h
  exact ⟨st', by simp [lexConsume, h1], h2⟩

theorem lexExpect_cons (st : LexState) (c : Char) (cs : List Char)
    (h : st.rest = c :: cs) :
    ∃ st', lexExpect c st = .ok st' ∧ st'.rest = cs := by
  obtain ⟨st', h1, h2⟩ := lexConsume_cons st c cs h
  exact ⟨st', by simp [lexExpect, h1, Except.bind, bind], h2⟩

theorem lexExpectOneOf_cons (st : LexState) (c : Char) (cs : List Char)
    (charset : List Char) (h : st.rest = c :: cs) (hc : c ∈ charset) :
    ∃ st', lexExpectOneOf charset st = .ok (c, st') ∧ st'.rest = cs := by
  obtain ⟨st', h1, h2⟩ := lexConsume_cons st c cs h
  exact ⟨st', by simp [lexExpectOneOf, h1, Except.bind, bind, hc], h2⟩

theorem lexSkipIf_no (st : LexState) (c : Char)
    (h : st.rest.head? ≠ some c) : lexSkipIf c st = (false, st) := by
  simp [lexSkipIf, h]

theorem lexSkipIf_yes (st : LexState) (c : Char) (cs : List Char)
    (h : st.rest = c :: cs) :
    ∃ st', lexSkipIf c st = (true, st') ∧ st'.rest = cs := by
  obtain ⟨st', h1, h2⟩ := consumeOrEnd_cons st c cs h
  refine ⟨st', ?_, h2⟩
  simp [lexSkipIf, h, h1]

/-- `consumeWhile` that consumes exactly one character before stopping. -/
theorem lexConsumeWhile_one (charset : List Char) (st : LexState) (c d : Char)
    (cs : List Char) (h : st.rest = c :: d :: cs) (hc : c ∈ charset)
    (hd : d ∉ charset) :
    ∃ st', lexConsumeWhile charset st = ([c], st') ∧ st'.rest = d :: cs := by
  obtain ⟨st1, h1, h2⟩ := consumeOrEnd_cons st c (d :: cs) h
  refine ⟨st1, ?_, h2⟩
  unfold lexConsumeWhile
  rw [h]
  simp only [List.length_cons]
  unfold lexConsumeWhileF
  simp only [h, List.head?_cons, hc, reduceIte, h1]
  unfold lexConsumeWhileF
  simp [h2, hd]

/-- `consumeWhile` that consumes nothing. -/
theorem lexConsumeWhile_none (charset : List Char) (st : LexState)
    (h : ∀ c, st.rest.head? = some c → c ∉ charset) :
    lexConsumeWhile charset st = ([], st) := by
  unfold lexConsumeWhile lexConsumeWhileF
  match hh : st.rest with
  | [] => simp
  | c :: cs =>
      have := h c (by rw [hh]; rfl)
      simp [this]

theorem lexSkipWhile_one (charset : List Char) (st : LexState) (c d : Char)
    (cs : List Char) (h : st.rest = c :: d :: cs) (hc : c ∈ charset)
    (hd : d ∉ charset) :
    ∃ st', lexSkipWhile charset st = (1, st') ∧ st'.rest = d :: cs := by
  obtain ⟨st', h1, h2⟩ := lexConsumeWhile_one charset st c d cs h hc hd
  exact ⟨st', by simp [lexSkipWhile, h1], h2⟩

theorem lexSkipWhile_none (charset : List Char) (st : LexState)
    (h : ∀ c, st.rest.head? = some c → c ∉ charset) :
    lexSkipWhile charset st = (0, st) := by
  simp [lexSkipWhile, lexConsumeWhile_none charset st h]

/-- `parseName` on a single alphanumeric character followed by a
non-name character other than `:`. -/
theorem parseName_one (st : LexState) (c d : Char) (cs : List Char)
    (h : st.rest = c :: d :: cs) (hc : c ∈ ALPHANUMERIC)
    (hd : d ∉ ALPHANUMERIC) (hdc : d ≠ ':') :
    ∃ st', parseName st = .ok (⟨"", String.mk [c]⟩, st')
      ∧ st'.rest = d :: cs := by
  obtain ⟨st', h1, h2⟩ := lexConsumeWhile_one ALPHANUMERIC st c d cs h hc hd
  refine ⟨st', ?_, h2⟩
  have hskip : lexSkipIf ':' st' = (false, st') :=
    lexSkipIf_no st' ':' (by rw [h2]; simp [hdc])
  simp [parseName, lexExpectOneOrMoreOf, h1, hskip, Except.bind, bind]

end XmlJs

namespace XmlJs

/-- Scanning a value whose characters are neither the delimiter nor `&`
consumes exactly those characters verbatim and stops at the delimiter —
raw `<` and `>` (and the other quote character) included. -/
theorem parseTextOrValue_verbatim (delimiter : Char) :
    ∀ (v : List Char) (fuel : Nat) (st : LexState) (tail : List Char),
      st.rest = v ++ delimiter :: tail →
      (∀ ch ∈ v, ch ≠ delimiter ∧ ch ≠ '&') →
      v.length < fuel →
      ∃ st', parseTextOrValue fuel delimiter st = .ok (String.mk v, st')
        ∧ st'.rest = delimiter :: tail := by
  intro v
  induction v with
  | nil =>
      intro fuel st tail hrest hv hfuel
      match fuel, hfuel with
      | fuel + 1, _ =>
          refine ⟨st, ?_, by simpa using hrest⟩
          simp only [List.nil_append] at hrest
          simp [parseTextOrValue, hrest]
  | cons c v ih =>
      intro fuel st tail hrest hv hfuel
      match fuel, hfuel with
      | fuel + 1, hf =>
          have hrest2 : st.rest = c :: (v ++ delimiter :: tail) := by
            simpa using hrest
          obtain ⟨st1, hcon, hrest1⟩ :=
            lexConsume_cons st c (v ++ delimiter :: tail) hrest2
          have hfuel2 : v.length < fuel := by
            simp only [List.length_cons] at hf
            omega
          obtain ⟨st', hrec, hrest'⟩ := ih fuel st1 tail hrest1
            (fun ch hch => hv ch (List.mem_cons_of_mem c hch)) hfuel2
          refine ⟨st', ?_, hrest'⟩
          have hcd : c ≠ delimiter := (hv c (List.mem_cons_self c v)).1
          have hca : c ≠ '&' := (hv c (List.mem_cons_self c v)).2
          simp only [parseTextOrValue, hrest2, List.head?_cons, hcd, hca,
            reduceIte, hcon, hrec, Except.bind, bind]
          have : c.toString ++ String.mk v = String.mk (c :: v) := rfl
          rw [this]

end XmlJs

namespace XmlJs

/-- The attribute loop on ` b="v"/>` where `v` contains neither `"` nor
`&`: one pair is parsed (the raw value verbatim) and the tag closes
self-closing. -/
theorem parseAttrs_one_verbatim (v : List Char)
    (hv : ∀ ch ∈ v, ch ≠ '\"' ∧ ch ≠ '&') (st : LexState) (fuel : Nat)
    (hrest : st.rest = ' ' :: 'b' :: '=' :: '\"' :: (v ++ ['\"', '/', '>']))
    (hfuel : 2 ≤ fuel) :
    ∃ st', parseAttrs fuel st []
        = .ok ([(⟨"", "b"⟩, String.mk v)], true, st')
      ∧ st'.rest = [] := by
  match fuel, hfuel with
  | fuel + 1, hf =>
      obtain ⟨st1, hsw, hr1⟩ := lexSkipWhile_one WHITESPACE st ' ' 'b' _
        hrest (by decide) (by decide)
      have hs1 : lexSkipIf '/' st1 = (false, st1) :=
        lexSkipIf_no _ _ (by rw [hr1]; simp)
      have hs2 : lexSkipIf '>' st1 = (false, st1) :=
        lexSkipIf_no _ _ (by rw [hr1]; simp)
      obtain ⟨st2, hnm, hr2⟩ := parseName_one st1 'b' '=' _ hr1 (by decide)
        (by decide) (by decide)
      have hsw2 : lexSkipWhile WHITESPACE st2 = (0, st2) :=
        lexSkipWhile_none _ _ (by
          rw [hr2]
          intro c hc
          simp at hc
          subst hc
          decide)
      obtain ⟨st3, hexp, hr3⟩ := lexExpect_cons st2 '=' _ hr2
      have hsw3 : lexSkipWhile WHITESPACE st3 = (0, st3) :=
        lexSkipWhile_none _ _ (by
          rw [hr3]
          intro c hc
          simp at hc
          subst hc
          decide)
      obtain ⟨st4, hquote, hr4⟩ := lexExpectOneOf_cons st3 '\"' _ QUOTE hr3
        (by decide)
      have hr4b : st4.rest = v ++ '\"' :: ['/', '>'] := by
        rw [hr4]
      obtain ⟨st5, hptv, hr5⟩ := parseTextOrValue_verbatim '\"' v
        (st4.rest.length + 1) st4 ['/', '>'] hr4b hv
        (by rw [hr4]; simp only [List.length_append, List.length_cons,
          List.length_nil]; omega)
      obtain ⟨st6, hexp2, hr6⟩ := lexExpect_cons st5 '\"' _ hr5
      -- the second iteration: `/>` closes the tag
      match fuel, (by omega : 1 ≤ fuel) with
      | fuel2 + 1, _ =>
          have hsw4 : lexSkipWhile WHITESPACE st6 = (0, st6) :=
            lexSkipWhile_none _ _ (by
              rw [hr6]
              intro c hc
              simp at hc
              subst hc
              decide)
          obtain ⟨st7, hs3, hr7⟩ := lexSkipIf_yes st6 '/' _ hr6
          obtain ⟨st8, hexp3, hr8⟩ := lexExpect_cons st7 '>' _ hr7
          refine ⟨st8, ?_, hr8⟩
          simp only [parseAttrs, hsw, hs1, hs2, hnm, hsw2, hexp, hsw3,
            hquote, hptv, hexp2, hsw4, hs3, hexp3, Except.bind, bind,
            Bool.false_eq_true, reduceIte, List.nil_append]

end XmlJs

namespace XmlJs

theorem parseTextOrValue_at_delim (fuel : Nat) (delimiter : Char)
    (st : LexState) (cs : List Char) (h : st.rest = delimiter :: cs)
    (hf : 1 ≤ fuel) : parseTextOrValue fuel delimiter st = .ok ("", st) := by
  match fuel, hf with
  | fuel + 1, _ => simp [parseTextOrValue, h]

set_option maxHeartbeats 1000000 in
/-- C9: attribute-value scanning stops only at the matching opening quote
or at `&`, so an attribute value may contain raw unescaped `<` and `>` and
the other quote character: for every value `v` free of `"` and `&`, parsing
`<a b="v"/>` succeeds and stores `v` verbatim as the attribute's value. -/
theorem c9_attr_value_verbatim (v : List Char)
    (hv : ∀ ch ∈ v, ch ≠ '\"' ∧ ch ≠ '&') :
    parseXml (String.mk ('<' :: 'a' :: ' ' :: 'b' :: '=' :: '\"' ::
        (v ++ ['\"', '/', '>'])))
      = .ok (.elem ⟨"", "a"⟩ [(⟨"", "b"⟩, String.mk v)] []) := by
  set full : List Char := '<' :: 'a' :: ' ' :: 'b' :: '=' :: '\"' ::
    (v ++ ['\"', '/', '>']) with hfull
  have hr0 : (mkLexer (String.mk full)).rest = full := rfl
  obtain ⟨F, hF1, hF2⟩ :
      ∃ F, 2 * (String.mk full).length + 2 = F + 1 ∧ 1 ≤ F :=
    ⟨2 * (String.mk full).length + 1, by omega, by omega⟩
  have hptv0 : parseTextOrValue ((mkLexer (String.mk full)).rest.length + 1)
      '<' (mkLexer (String.mk full)) = .ok ("", mkLexer (String.mk full)) :=
    parseTextOrValue_at_delim _ '<' _ ('a' :: ' ' :: 'b' :: '=' :: '\"' ::
      (v ++ ['\"', '/', '>'])) hr0 (by omega)
  obtain ⟨st2, hexp0, hr2⟩ := lexExpect_cons (mkLexer (String.mk full)) '<'
    ('a' :: ' ' :: 'b' :: '=' :: '\"' :: (v ++ ['\"', '/', '>'])) hr0
  have hbang : lexSkipIf '!' st2 = (false, st2) :=
    lexSkipIf_no _ _ (by rw [hr2]; simp)
  have hqm : lexSkipIf '?' st2 = (false, st2) :=
    lexSkipIf_no _ _ (by rw [hr2]; simp)
  have hsl : lexSkipIf '/' st2 = (false, st2) :=
    lexSkipIf_no _ _ (by rw [hr2]; simp)
  obtain ⟨st5, hnm, hr5⟩ := parseName_one st2 'a' ' '
    ('b' :: '=' :: '\"' :: (v ++ ['\"', '/', '>'])) hr2 (by decide)
    (by decide) (by decide)
  have hnmA : parseName st2 = .ok (⟨"", "a"⟩, st5) := by
    rw [hnm]
  obtain ⟨st6, hattrs, hr6⟩ := parseAttrs_one_verbatim v hv st5
    (st5.rest.length + 1) hr5 (by rw [hr5]; simp)
  have hcont2 : parseContent F st6
      ⟨⟨"", ""⟩, [], [.elem ⟨"", "a"⟩ [(⟨"", "b"⟩, String.mk v)] []]⟩
      = .ok (⟨⟨"", ""⟩, [],
          [.elem ⟨"", "a"⟩ [(⟨"", "b"⟩, String.mk v)] []]⟩, st6) :=
    parseContent_at_eof F st6 _ hr6 hF2
  have hend : lexIsEnd (mkLexer (String.mk full)) = false := by
    rw [lexIsEnd, hr0, hfull]
    rfl
  have hmain : parseContent (F + 1) (mkLexer (String.mk full))
      ⟨⟨"", ""⟩, [], []⟩
      = .ok (⟨⟨"", ""⟩, [],
          [.elem ⟨"", "a"⟩ [(⟨"", "b"⟩, String.mk v)] []]⟩, st6) := by
    simp only [parseContent, hptv0, hexp0, hbang, hqm, hsl, hnmA, hattrs,
      hcont2, hend, Except.bind, bind, String.length_empty,
      Bool.false_eq_true, reduceIte, ne_eq, not_true_eq_false,
      not_false_eq_true, addChildNode, List.nil_append]
  simp only [parseXml, hF1, hmain, Except.bind, bind, findRoot,
    isWhitespaceOnly]
end XmlJs

namespace XmlJs

/-- Witness for C9 at a concrete value containing a raw `<`, `>` and the
other quote character. -/
theorem c9_attr_value_verbatim_witness :
    parseXml (String.mk ('<' :: 'a' :: ' ' :: 'b' :: '=' :: '\"' ::
        (['<', 'x', '>', '\''] ++ ['\"', '/', '>'])))
      = .ok (.elem ⟨"", "a"⟩
          [(⟨"", "b"⟩, String.mk ['<', 'x', '>', '\''])] []) :=
  c9_attr_value_verbatim ['<', 'x', '>', '\''] (by decide)

end XmlJs
